import Mathlib

/-!
Index scan executor of Peloton

A shallow embedding of `src/backend/executor/index_scan_executor.cpp`
(`IndexScanExecutor::DInit`, `DExecute`, `ExecIndexLookup`) together with the
collaborators it calls, followed by the properties of the executor.

Conventions of the embedding:

* machine integers (`oid_t`, `txn_id_t`, `cid_t`) are natural numbers, `oid_t`
  being written `Nat`; the only arithmetic on them is `result_itr++` below
  `result.size()`;
* a failed `assert` and a dereferenced null pointer are explicit outcomes
  (`Fault`), so every function returns `Except Fault _`;
* calls that leave the executor (index scans, expression evaluation) are
  recorded, in order, in the field `log` of the executor state; the log is
  bookkeeping of the embedding and is never read by the modelled code, except
  that the index, being shared mutable state, may answer the k-th scan
  differently from the one before.
-/

namespace peloton

/-! ## Collaborators -/

abbrev txn_id_t := Nat
abbrev cid_t := Nat
abbrev ExpressionType := Nat

/-- Modelled from the spec: `START_OID` of `backend/common/types.h`, the first
position of the cursor over `result`. -/
def START_OID : Nat := 0

/-- Modelled from the spec: `Value` of `backend/common/value.h`; a boolean
value is three-valued (true, false, unknown/null), other values are keys. -/
inductive Value where
  | boolTrue
  | boolFalse
  | null
  | integer (n : Int)
  deriving DecidableEq

/-- Modelled from the spec: `Value::IsFalse`; only a definite false is false. -/
def Value.IsFalse : Value → Bool
  | .boolFalse => true
  | _ => false

/-- Modelled from the spec: `ItemPointer`, a physical tuple location (storage
group identifier and offset in the group). -/
structure ItemPointer where
  block : Nat
  offset : Nat
  deriving DecidableEq

/-- Modelled from the spec: `LogicalTile` of `backend/executor/logical_tile.h`;
`rows` holds the column values of each row id, `visible_rows_` the visibility
flag of each row id. -/
structure LogicalTile where
  rows : List (List Value)
  visible_rows_ : List Bool
  deriving DecidableEq

/-- Modelled from the spec: whether row `tuple_id` is currently visible. -/
def LogicalTile.IsVisible (t : LogicalTile) (tuple_id : Nat) : Bool :=
  t.visible_rows_.getD tuple_id false

/-- Modelled from the spec: `LogicalTile::GetTupleCount`, the number of
visible rows. -/
def LogicalTile.GetTupleCount (t : LogicalTile) : Nat :=
  t.visible_rows_.count true

/-- Modelled from the spec: `LogicalTile::RemoveVisibility`, hide one row. -/
def LogicalTile.RemoveVisibility (t : LogicalTile) (tuple_id : Nat) : LogicalTile :=
  { t with visible_rows_ := t.visible_rows_.set tuple_id false }

/-- Modelled from the spec: `expression::ContainerTuple<LogicalTile>`, one row
of a tile as seen by an expression: the values of the tile and a row id. -/
structure ContainerTuple where
  container : List (List Value)
  tuple_id : Nat
  deriving DecidableEq

/-- Modelled from the spec: the active transaction, read through
`executor_context_->GetTransaction()`. -/
structure Transaction where
  txn_id : txn_id_t
  last_commit_id : cid_t
  deriving DecidableEq

/-- Modelled from the spec: `ExecutorContext`, the transaction and the bound
parameters of the running query. -/
structure ExecutorContext where
  transaction : Transaction
  params : List Value
  deriving DecidableEq

/-- Modelled from the spec: `expression::AbstractExpression`, known only
through `Evaluate(tuple1, tuple2, context)`. -/
structure AbstractExpression where
  Evaluate : Option ContainerTuple → Option ContainerTuple → ExecutorContext → Value

/-- Modelled from the spec: `index::Index`. The index is shared with other
transactions, so the answer of a scan may change from one call to the next:
the first argument of both scans is the number of scans this executor has
issued before. -/
structure Index where
  ScanAll : Nat → List ItemPointer
  Scan : Nat → List Value → List Nat → List ExpressionType → List ItemPointer

/-- Modelled from the spec: `LogicalTileFactory`, known only through
`WrapTileGroups(tuple_locations, column_ids, txn_id, commit_id)`. -/
structure LogicalTileFactory where
  WrapTileGroups : List ItemPointer → List Nat → txn_id_t → cid_t → List LogicalTile

/-- Modelled from the spec: `storage::DataTable`, of which the executor reads
`GetSchema()->GetColumnCount()`. -/
structure DataTable where
  column_count : Nat
  deriving DecidableEq

/-- Modelled from the spec: `planner::IndexScanNode`, the getters `DInit`
reads. -/
structure IndexScanNode where
  index : Option Index
  column_ids : List Nat
  key_column_ids : List Nat
  expr_types : List ExpressionType
  values : List Value
  runtime_keys : List AbstractExpression
  table : Option DataTable

/-- Calls that leave the executor, in the order they are made. -/
inductive Event where
  | indexScanAll
  | indexScan (values : List Value) (key_column_ids : List Nat)
      (expr_types : List ExpressionType)
  | evaluateRuntimeKey (position : Nat) (tuple : Option ContainerTuple)
  | evaluatePredicate (tile : Nat) (tuple_id : Nat)
  deriving DecidableEq

/-- Whether an event is an index probe (either form of `Index::Scan`). -/
def Event.isProbe : Event → Bool
  | .indexScanAll => true
  | .indexScan _ _ _ => true
  | _ => false

/-- Whether an event is the evaluation of a runtime key. -/
def Event.isRuntimeKey : Event → Bool
  | .evaluateRuntimeKey _ _ => true
  | _ => false

/-- Number of index probes recorded in a log. -/
def probeCount (log : List Event) : Nat :=
  (log.filter Event.isProbe).length

/-- Runtime key evaluations recorded in a log. -/
def runtimeKeyEvals (log : List Event) : List Event :=
  log.filter Event.isRuntimeKey

/-- Abnormal outcomes: a failed `assert`, a null pointer dereference. -/
inductive Fault where
  | assertion
  | nullPointer
  deriving DecidableEq

/-! ## Executor state -/

/-- Modelled from the spec: the members of `IndexScanExecutor` (declared in
`backend/executor/index_scan_executor.h`) and of its base classes that the
three functions read or write; `children_` is the number of child executors,
`output` the tile last passed to `SetOutput`. -/
structure IndexScanExecutor where
  node : IndexScanNode
  executor_context_ : ExecutorContext
  predicate_ : Option AbstractExpression
  children_ : Nat
  index_ : Option Index
  result_itr : Nat
  done_ : Bool
  column_ids_ : List Nat
  key_column_ids_ : List Nat
  expr_types_ : List ExpressionType
  values_ : List Value
  runtime_keys_ : List AbstractExpression
  key_ready : Bool
  result : List LogicalTile
  output : Option LogicalTile
  log : List Event

/-- Modelled from the spec: the executor as its constructor leaves it, a leaf
with nothing probed and no runtime key cached. -/
def IndexScanExecutor.create (node : IndexScanNode) (ctx : ExecutorContext)
    (predicate : Option AbstractExpression) : IndexScanExecutor :=
  { node := node, executor_context_ := ctx, predicate_ := predicate, children_ := 0,
    index_ := none, result_itr := START_OID, done_ := false, column_ids_ := [],
    key_column_ids_ := [], expr_types_ := [], values_ := [], runtime_keys_ := [],
    key_ready := false, result := [], output := none, log := [] }

/-! ## `IndexScanExecutor::DInit` -/

/-- The loop `for (auto expr : runtime_keys_)` of `DInit`: evaluate each
runtime key against no tuple and push the value onto `values_`. The log entry
records the tuple argument that `Evaluate` was given. -/
def evaluateRuntimeKeys : List AbstractExpression → Nat → IndexScanExecutor → IndexScanExecutor
  | [], _, s => s
  | expr :: rest, k, s =>
    let tuple : Option ContainerTuple := none
    let value := expr.Evaluate tuple none s.executor_context_
    evaluateRuntimeKeys rest (k + 1)
      { s with values_ := s.values_ ++ [value],
               log := s.log ++ [Event.evaluateRuntimeKey k tuple] }

/-- Lines 55-65 of `DInit`: the members taken from the plan node, the cursor
and the `done_` flag. -/
def DInit_grab (s : IndexScanExecutor) : IndexScanExecutor :=
  { s with index_ := s.node.index,
           result_itr := START_OID,
           done_ := false,
           column_ids_ := s.node.column_ids,
           key_column_ids_ := s.node.key_column_ids,
           expr_types_ := s.node.expr_types,
           values_ := s.node.values,
           runtime_keys_ := s.node.runtime_keys }

/-- Lines 67-81 of `DInit` without the assertion: when there are runtime keys
and they are not ready, clear `values_`, evaluate the keys and set `key_ready`. -/
def DInit_keys (s : IndexScanExecutor) : IndexScanExecutor :=
  if s.runtime_keys_.length ≠ 0 ∧ s.key_ready = false then
    { evaluateRuntimeKeys s.runtime_keys_ 0 { s with values_ := [] } with key_ready := true }
  else s

/-- Lines 83-90 of `DInit`: with a table and no column ids, all columns. -/
def DInit_columns (s : IndexScanExecutor) : IndexScanExecutor :=
  match s.node.table with
  | some table =>
    if s.column_ids_.isEmpty then { s with column_ids_ := List.range table.column_count }
    else s
  | none => s

/-- `IndexScanExecutor::DInit`, in a build that checks assertions. `status` is
what `AbstractScanExecutor::DInit` (not among the sources) returned. The three
assertions are checked in the order of the source; the members are assigned
by `DInit_grab`, `DInit_keys` and `DInit_columns`. The build with `NDEBUG` is
`DInit_ndebug`; where this function succeeds both agree
(`DInit_ndebug_of_ok`). -/
def DInit (status : Bool) (s : IndexScanExecutor) : Except Fault (Bool × IndexScanExecutor) :=
  if !status then .ok (false, s)
  else if s.children_ ≠ 0 then .error Fault.assertion
  else if (DInit_grab s).index_.isNone then .error Fault.assertion
  else if (DInit_grab s).runtime_keys_.length ≠ 0 ∧
      (DInit_grab s).runtime_keys_.length ≠ (DInit_grab s).values_.length then
    .error Fault.assertion
  else .ok (true, DInit_columns (DInit_keys (DInit_grab s)))

/-! ## `IndexScanExecutor::ExecIndexLookup` -/

/-- The call of `index_->Scan` in `ExecIndexLookup`: the unconditional scan
when there are no key columns, the conditional scan otherwise. -/
def scanCall (s : IndexScanExecutor) : Event :=
  if s.key_column_ids_.length = 0 then Event.indexScanAll
  else Event.indexScan s.values_ s.key_column_ids_ s.expr_types_

/-- The locations the index returns for the call `scanCall s`. -/
def tupleLocations (index : Index) (s : IndexScanExecutor) : List ItemPointer :=
  if s.key_column_ids_.length = 0 then index.ScanAll (probeCount s.log)
  else index.Scan (probeCount s.log) s.values_ s.key_column_ids_ s.expr_types_

/-- `IndexScanExecutor::ExecIndexLookup`. -/
def ExecIndexLookup (F : LogicalTileFactory) (s : IndexScanExecutor) :
    Except Fault (Bool × IndexScanExecutor) :=
  if s.done_ then .error Fault.assertion
  else
    match s.index_ with
    | none => .error Fault.nullPointer
    | some index =>
      let tuple_locations := tupleLocations index s
      let s1 := { s with log := s.log ++ [scanCall s] }
      if tuple_locations.length = 0 then .ok (false, s1)
      else
        let txn_id := s1.executor_context_.transaction.txn_id
        let commit_id := s1.executor_context_.transaction.last_commit_id
        .ok (true, { s1 with result := F.WrapTileGroups tuple_locations s1.column_ids_
                                          txn_id commit_id,
                             done_ := true })

/-! ## `IndexScanExecutor::DExecute` -/

/-- One step of `for (oid_t tuple_id : *result[result_itr])`: the tile iterator
stops only at rows that are visible when it reaches them; the predicate is
evaluated on such a row, and the row is hidden when the value is false. -/
def filterTuple (predicate : AbstractExpression) (ctx : ExecutorContext) (tile_index : Nat)
    (acc : LogicalTile × List Event) (tuple_id : Nat) : LogicalTile × List Event :=
  if acc.1.IsVisible tuple_id then
    if (predicate.Evaluate (some ⟨acc.1.rows, tuple_id⟩) none ctx).IsFalse then
      (acc.1.RemoveVisibility tuple_id, acc.2 ++ [Event.evaluatePredicate tile_index tuple_id])
    else
      (acc.1, acc.2 ++ [Event.evaluatePredicate tile_index tuple_id])
  else acc

/-- The whole loop `for (oid_t tuple_id : *result[result_itr])` over one tile. -/
def filterTile (predicate : AbstractExpression) (ctx : ExecutorContext) (tile_index : Nat)
    (tile : LogicalTile) (log : List Event) : LogicalTile × List Event :=
  (List.range tile.visible_rows_.length).foldl (filterTuple predicate ctx tile_index) (tile, log)

/-- Lines 111-120 of `DExecute`: when a predicate is set, filter the tile under
the cursor in place. -/
def applyPredicate (s : IndexScanExecutor) : IndexScanExecutor :=
  match s.predicate_, s.result[s.result_itr]? with
  | some predicate, some tile =>
    let r := filterTile predicate s.executor_context_ s.result_itr tile s.log
    { s with result := s.result.set s.result_itr r.1, log := r.2 }
  | _, _ => s

/-- The loop `while (result_itr < result.size())` of `DExecute`. The first
argument bounds the number of iterations; `DExecute` passes
`result.size() - result_itr`, which the loop cannot exceed because every
iteration increments `result_itr` (see `DExecute_while_eq`). -/
def DExecute_while : Nat → IndexScanExecutor → Bool × IndexScanExecutor
  | 0, s => (false, s)
  | n + 1, s =>
    if s.result_itr < s.result.length then
      let s1 := applyPredicate s
      match s1.result[s1.result_itr]? with
      | none => (false, s1)
      | some tile =>
        if tile.GetTupleCount = 0 then
          DExecute_while n { s1 with result_itr := s1.result_itr + 1 }
        else
          (true, { s1 with output := some tile, result_itr := s1.result_itr + 1 })
    else (false, s)

/-- Lines 100-103 of `DExecute`: probe the index unless that is done. The
boolean tells whether `DExecute` goes on to the loop, the state is the one the
loop starts from. -/
def DExecute_lookup (F : LogicalTileFactory) (s : IndexScanExecutor) :
    Except Fault (Bool × IndexScanExecutor) :=
  if !s.done_ then ExecIndexLookup F s else .ok (true, s)

/-- `IndexScanExecutor::DExecute`, the pull of the executor. -/
def DExecute (F : LogicalTileFactory) (s : IndexScanExecutor) :
    Except Fault (Bool × IndexScanExecutor) :=
  match DExecute_lookup F s with
  | .error f => .error f
  | .ok (false, s1) => .ok (false, s1)
  | .ok (true, s1) =>
    if !s1.done_ then .error Fault.assertion
    else .ok (DExecute_while (s1.result.length - s1.result_itr) s1)

/-! ## Sequences of calls -/

/-- The tile a pull hands to its caller: the current output after a pull that
returned true, nothing after one that returned false. -/
def emitted (r : Bool × IndexScanExecutor) : Option LogicalTile :=
  if r.1 then r.2.output else none

/-- A run of `n` successive pulls: the return value and emitted tile of each
pull, in order, and the final state. -/
def pulls (F : LogicalTileFactory) :
    Nat → IndexScanExecutor → Except Fault (List (Bool × Option LogicalTile) × IndexScanExecutor)
  | 0, s => .ok ([], s)
  | n + 1, s =>
    match DExecute F s with
    | .error f => .error f
    | .ok r =>
      match pulls F n r.2 with
      | .error f => .error f
      | .ok (rs, s2) => .ok ((r.1, emitted r) :: rs, s2)

/-- A run of `m` successive calls of `DInit`, each after a successful base
class initialisation; the run stops at the first call that does not succeed. -/
def inits : Nat → IndexScanExecutor → Except Fault (Bool × IndexScanExecutor)
  | 0, s => .ok (true, s)
  | m + 1, s =>
    match DInit true s with
    | .error f => .error f
    | .ok (false, s1) => .ok (false, s1)
    | .ok (true, s1) => inits m s1

/-! ## The residual filter and the output sequence, in the words of the spec -/

/-- Hide every row on which the predicate is a definite false; rows are
numbered from `k`. -/
def hideFalseFrom (predicate : AbstractExpression) (ctx : ExecutorContext)
    (rows : List (List Value)) : Nat → List Bool → List Bool
  | _, [] => []
  | k, v :: vs =>
    (v && !(predicate.Evaluate (some ⟨rows, k⟩) none ctx).IsFalse) ::
      hideFalseFrom predicate ctx rows (k + 1) vs

/-- A tile after the residual predicate has hidden the rows on which it is
false; rows on which it is true or unknown keep their flag. -/
def hideFalse (predicate : AbstractExpression) (ctx : ExecutorContext) (t : LogicalTile) :
    LogicalTile :=
  { t with visible_rows_ := hideFalseFrom predicate ctx t.rows 0 t.visible_rows_ }

/-- The residual filter of an executor: nothing when no predicate is set. -/
def residual (predicate_ : Option AbstractExpression) (ctx : ExecutorContext)
    (t : LogicalTile) : LogicalTile :=
  match predicate_ with
  | none => t
  | some predicate => hideFalse predicate ctx t

/-- The tiles of a result that keep at least one visible row after the
residual filter, filtered, in their original order. -/
def keptTiles (predicate_ : Option AbstractExpression) (ctx : ExecutorContext)
    (tiles : List LogicalTile) : List LogicalTile :=
  (tiles.map (residual predicate_ ctx)).filter (fun t => decide (0 < t.GetTupleCount))

/-- The tiles still to be emitted by an executor: the kept tiles from the
cursor onwards. -/
def pending (s : IndexScanExecutor) : List LogicalTile :=
  keptTiles s.predicate_ s.executor_context_ (s.result.drop s.result_itr)

/-- What `m` pulls return when `kept` is still to be emitted: each kept tile
once with `true`, in order, then `false` with no tile. -/
def expectedPulls (kept : List LogicalTile) (m : Nat) : List (Bool × Option LogicalTile) :=
  (kept.take m).map (fun t => (true, some t)) ++ List.replicate (m - kept.length) (false, none)

/-! ## Descriptions of the states of a run -/

/-- The executor after a probe of `index` that returned locations: the state
`ExecIndexLookup` returns with `true`. -/
def probed (F : LogicalTileFactory) (index : Index) (s : IndexScanExecutor) :
    IndexScanExecutor :=
  { s with log := s.log ++ [scanCall s],
           result := F.WrapTileGroups (tupleLocations index s) s.column_ids_
             s.executor_context_.transaction.txn_id
             s.executor_context_.transaction.last_commit_id,
           done_ := true }

/-- The executor after a probe that returned no location: the state
`ExecIndexLookup` returns with `false`. -/
def probedEmpty (s : IndexScanExecutor) : IndexScanExecutor :=
  { s with log := s.log ++ [scanCall s] }

/-! ## Concrete executors

The data of the examples of the spec: an index on column `id` over the rows
`id = 1` and `id = 2`, the residual predicate `id > 1`, the snapshot
`{transaction_id = 1, last_commit_id = 5}`. -/

/-- The state a call returned, or `dflt` when the call ended in a fault. -/
def stateAfter (r : Except Fault (Bool × IndexScanExecutor)) (dflt : IndexScanExecutor) :
    IndexScanExecutor :=
  match r with
  | .ok x => x.2
  | .error _ => dflt

/-- A tile with the two rows `id = 1` and `id = 2`, both visible. -/
def exampleTile : LogicalTile :=
  ⟨[[Value.integer 1], [Value.integer 2]], [true, true]⟩

/-- The predicate `id > 1` on column 0; unknown when there is no such value. -/
def idGreaterThanOne : AbstractExpression :=
  ⟨fun tuple _ _ =>
    match tuple with
    | some t =>
      match t.container.getD t.tuple_id [] with
      | Value.integer n :: _ => if 1 < n then Value.boolTrue else Value.boolFalse
      | _ => Value.null
    | none => Value.null⟩

/-- An index that answers every scan with the locations of the two rows. -/
def exampleIndex : Index :=
  ⟨fun _ => [⟨0, 0⟩, ⟨0, 1⟩], fun _ _ _ _ => [⟨0, 0⟩, ⟨0, 1⟩]⟩

/-- An index that answers every scan with no location. -/
def emptyIndex : Index :=
  ⟨fun _ => [], fun _ _ _ _ => []⟩

/-- An index that is empty at the first scan and holds one row afterwards, as
after an insertion by another transaction. -/
def lateIndex : Index :=
  ⟨fun k => if k = 0 then [] else [⟨0, 0⟩], fun k _ _ _ => if k = 0 then [] else [⟨0, 0⟩]⟩

/-- A factory that wraps any locations into the one tile `exampleTile`. -/
def exampleFactory : LogicalTileFactory :=
  ⟨fun _ _ _ _ => [exampleTile]⟩

/-- The plan node of the scan `id >= 1` (comparison code 15) over `index`. -/
def exampleNode (index : Option Index) : IndexScanNode :=
  { index := index, column_ids := [0], key_column_ids := [0], expr_types := [15],
    values := [Value.integer 1], runtime_keys := [], table := none }

/-- The snapshot of the examples. -/
def exampleContext : ExecutorContext :=
  ⟨⟨1, 5⟩, []⟩

/-- The executor of the scan `id >= 1` with residual predicate `id > 1`. -/
def exampleExecutor (index : Option Index) : IndexScanExecutor :=
  IndexScanExecutor.create (exampleNode index) exampleContext (some idGreaterThanOne)

/-- The executor `exampleExecutor` after one `DInit`. -/
def exampleInitialized (index : Option Index) : IndexScanExecutor :=
  stateAfter (DInit true (exampleExecutor index)) (exampleExecutor index)

/-- The executor `exampleInitialized` as its first pull enters the loop. -/
def exampleProbed (index : Option Index) : IndexScanExecutor :=
  stateAfter (DExecute_lookup exampleFactory (exampleInitialized index)) (exampleInitialized index)

/-- The executor `exampleInitialized` after one pull. -/
def examplePulled (index : Option Index) : IndexScanExecutor :=
  stateAfter (DExecute exampleFactory (exampleInitialized index)) (exampleInitialized index)

/-- A plan node whose key is a runtime key: the literal value list holds the
placeholder 0, the runtime key expression evaluates to 7. -/
def runtimeKeyNode : IndexScanNode :=
  { index := some exampleIndex, column_ids := [0], key_column_ids := [0], expr_types := [10],
    values := [Value.integer 0], runtime_keys := [⟨fun _ _ _ => Value.integer 7⟩],
    table := none }

/-- The executor of `runtimeKeyNode`, as constructed. -/
def runtimeKeyExecutor : IndexScanExecutor :=
  IndexScanExecutor.create runtimeKeyNode exampleContext none

/-- The plan node of a scan of all columns of a table with three columns:
no target column ids. -/
def allColumnsNode : IndexScanNode :=
  { index := some exampleIndex, column_ids := [], key_column_ids := [], expr_types := [],
    values := [], runtime_keys := [], table := some ⟨3⟩ }

/-- The executor of `allColumnsNode`, as constructed. -/
def allColumnsExecutor : IndexScanExecutor :=
  IndexScanExecutor.create allColumnsNode exampleContext none

/-- The number of iterations of the loop `while (result_itr < result.size())`
of `DExecute`, that is, the number of tiles it examines: the recursion of
`DExecute_while`, counting one for each pass through the body. -/
def DExecute_while_iterations : Nat → IndexScanExecutor → Nat
  | 0, _ => 0
  | n + 1, s =>
    if s.result_itr < s.result.length then
      let s1 := applyPredicate s
      match s1.result[s1.result_itr]? with
      | none => 1
      | some tile =>
        if tile.GetTupleCount = 0 then
          1 + DExecute_while_iterations n { s1 with result_itr := s1.result_itr + 1 }
        else 1
    else 0

/-- The executor `examplePulled` after a second `DInit`. -/
def exampleReinitialized (index : Option Index) : IndexScanExecutor :=
  stateAfter (DInit true (examplePulled index)) (examplePulled index)

/-- The executor `exampleReinitialized` after one pull. -/
def exampleRepulled (index : Option Index) : IndexScanExecutor :=
  stateAfter (DExecute exampleFactory (exampleReinitialized index)) (exampleReinitialized index)

/-- Whether an event is an evaluation of the residual predicate. -/
def Event.isPredicate : Event → Bool
  | .evaluatePredicate _ _ => true
  | _ => false

/-- The evaluations of the residual predicate on the tile at position `k`, as
the spec words them: one for each visible row of the tile, in row order; none
when no predicate is configured. -/
def tileEvaluations (predicate_ : Option AbstractExpression) (k : Nat) (t : LogicalTile) :
    List Event :=
  match predicate_ with
  | none => []
  | some _ =>
    ((List.range t.visible_rows_.length).filter (fun i => t.IsVisible i)).map
      (Event.evaluatePredicate k)

/-- The evaluations of the residual predicate on the `c` tiles from position
`a` on, tile after tile. -/
def evaluationsFrom (predicate_ : Option AbstractExpression) (tiles : List LogicalTile) :
    Nat → Nat → List Event
  | _, 0 => []
  | a, c + 1 =>
    (match tiles[a]? with
      | some t => tileEvaluations predicate_ a t
      | none => []) ++ evaluationsFrom predicate_ tiles (a + 1) c

/-- The executor `examplePulled` after a second pull. -/
def examplePulledTwice (index : Option Index) : IndexScanExecutor :=
  stateAfter (DExecute exampleFactory (examplePulled index)) (examplePulled index)

/-! ## The logical tile factory, from the spec

`LogicalTileFactory::WrapTileGroups` and the storage it reads are not among
the sources. The definitions of this section follow sections 3 and 4.2 of the
spec, and leave open what the spec leaves open: which version a chain resolves
to when several of its versions are visible. -/

/-- Modelled from the spec: the tuple version metadata of `storage::TileGroupHeader`
(not among the sources): the creating transaction, the creating commit id
(`none` while not yet committed), and the column values of the version. The
reference to the newer version is held by `Storage.chain`. -/
structure TupleVersion where
  creator : txn_id_t
  commit_id : Option cid_t
  values : List Value
  deriving DecidableEq

/-- Modelled from the spec: the storage `WrapTileGroups` reads (not among the
sources): the version in each slot, and for each slot the version chain of
its logical row, oldest version first, that is, the slots met by following the
references to newer versions. -/
structure Storage where
  version : ItemPointer → Option TupleVersion
  chain : ItemPointer → List ItemPointer

/-- Modelled from the spec: the visibility of a version under a snapshot, the
invariant of section 3 (`TileGroupHeader::IsVisible` is not among the
sources): the creator is the transaction itself, or the version is committed
with a commit id not after the last commit id of the snapshot. -/
def TupleVersion.IsVisible (v : TupleVersion) (txn_id : txn_id_t) (last_commit_id : cid_t) :
    Bool :=
  v.creator == txn_id ||
    (match v.commit_id with
      | some c => decide (c ≤ last_commit_id)
      | none => false)

/-- Modelled from the spec: whether the slot at a location holds a version
visible under the snapshot (storage access of the absent `WrapTileGroups`). -/
def Storage.IsVisible (st : Storage) (txn_id : txn_id_t) (last_commit_id : cid_t)
    (loc : ItemPointer) : Bool :=
  match st.version loc with
  | some v => v.IsVisible txn_id last_commit_id
  | none => false

/-- Modelled from the spec: the resolution of a version chain of the absent
`WrapTileGroups`: from the visibility of the slots and the chain, the version
the chain resolves to, if any. -/
abbrev Resolution := (ItemPointer → Bool) → List ItemPointer → Option ItemPointer

/-- Modelled from the spec: the versions `WrapTileGroups` (absent) emits for a
list of locations, in the order of the locations: for each location the
version its chain resolves to. -/
def resolvedVersions (resolve : Resolution) (st : Storage) (txn_id : txn_id_t)
    (last_commit_id : cid_t) (locs : List ItemPointer) : List ItemPointer :=
  locs.filterMap (fun loc => resolve (st.IsVisible txn_id last_commit_id) (st.chain loc))

/-- Modelled from the spec: a row of a tile of the absent `WrapTileGroups`, the
values of the selected columns of a version. -/
def projectVersion (column_ids : List Nat) (v : TupleVersion) : List Value :=
  column_ids.map (fun c => v.values.getD c Value.null)

/-- Modelled from the spec: the tile the absent `WrapTileGroups` makes for one
storage group, holding the versions resolved for the locations of that group,
all visible. -/
def wrapBlock (resolve : Resolution) (st : Storage) (locs : List ItemPointer)
    (column_ids : List Nat) (txn_id : txn_id_t) (last_commit_id : cid_t) (block : Nat) :
    LogicalTile :=
  let versions :=
    (resolvedVersions resolve st txn_id last_commit_id
      (locs.filter (fun loc => loc.block = block))).filterMap st.version
  { rows := versions.map (projectVersion column_ids),
    visible_rows_ := versions.map (fun _ => true) }

/-- Modelled from the spec: `LogicalTileFactory::WrapTileGroups` (absent), one
tile for each storage group of the locations. -/
def WrapLocations (resolve : Resolution) (st : Storage) : LogicalTileFactory :=
  ⟨fun locs column_ids txn_id last_commit_id =>
    ((locs.map (fun loc => loc.block)).dedup).map
      (wrapBlock resolve st locs column_ids txn_id last_commit_id)⟩

/-- The two calls a parent operator makes on the executor. -/
inductive Call where
  | init
  | pull
  deriving DecidableEq

/-- A run of calls of `DInit` (after a successful base class initialisation)
and `DExecute`, in any order: each call with the boolean it returned, in
order, and the final state. -/
def calls (F : LogicalTileFactory) :
    List Call → IndexScanExecutor → Except Fault (List (Call × Bool) × IndexScanExecutor)
  | [], s => .ok ([], s)
  | c :: rest, s =>
    match (match c with
      | Call.init => DInit true s
      | Call.pull => DExecute F s) with
    | .error f => .error f
    | .ok r =>
      match calls F rest r.2 with
      | .error f => .error f
      | .ok (rs, s2) => .ok ((c, r.1) :: rs, s2)

/-- `IndexScanExecutor::DInit` as compiled with `NDEBUG`: the `assert`s of
lines 49, 56 and 68 expand to nothing, the rest is the body of `DInit`. -/
def DInit_ndebug (status : Bool) (s : IndexScanExecutor) :
    Except Fault (Bool × IndexScanExecutor) :=
  if !status then .ok (false, s)
  else .ok (true, DInit_columns (DInit_keys (DInit_grab s)))

/-- A plan node with two runtime keys and one key value. -/
def mismatchedNode : IndexScanNode :=
  { index := some exampleIndex, column_ids := [0], key_column_ids := [0], expr_types := [10],
    values := [Value.integer 0],
    runtime_keys := [⟨fun _ _ _ => Value.integer 7⟩, ⟨fun _ _ _ => Value.integer 8⟩],
    table := none }

/-- The executor of `mismatchedNode`, as constructed. -/
def mismatchedExecutor : IndexScanExecutor :=
  IndexScanExecutor.create mismatchedNode exampleContext none

/-- A plan node with two runtime keys that read the bound parameters of the
query, and two placeholder key values. -/
def parameterKeyNode : IndexScanNode :=
  { index := some exampleIndex, column_ids := [0], key_column_ids := [0, 1],
    expr_types := [10, 10], values := [Value.integer 0, Value.integer 0],
    runtime_keys :=
      [⟨fun tuple _ ctx =>
          match tuple with
          | none => ctx.params.getD 0 Value.null
          | some _ => Value.null⟩,
       ⟨fun tuple _ ctx =>
          match tuple with
          | none => ctx.params.getD 1 Value.null
          | some _ => Value.null⟩],
    table := none }

/-- The executor of `parameterKeyNode` with the parameters 7 and 8. -/
def parameterKeyExecutor : IndexScanExecutor :=
  IndexScanExecutor.create parameterKeyNode ⟨⟨1, 5⟩, [Value.integer 7, Value.integer 8]⟩ none

/-! ## Lemmas on tiles and on the residual filter -/

theorem hideFalseFrom_length (p : AbstractExpression) (ctx : ExecutorContext)
    (rows : List (List Value)) (vs : List Bool) (k : Nat) :
    (hideFalseFrom p ctx rows k vs).length = vs.length := by
  induction vs generalizing k with
  | nil => rfl
  | cons v vs ih => simp [hideFalseFrom, ih]

theorem hideFalseFrom_getD (p : AbstractExpression) (ctx : ExecutorContext)
    (rows : List (List Value)) (vs : List Bool) (k i : Nat) :
    (hideFalseFrom p ctx rows k vs).getD i false
      = (vs.getD i false && !(p.Evaluate (some ⟨rows, k + i⟩) none ctx).IsFalse) := by
  induction vs generalizing k i with
  | nil => simp [hideFalseFrom]
  | cons v vs ih =>
    cases i with
    | zero => simp [hideFalseFrom]
    | succ i =>
      simp only [hideFalseFrom, List.getD_cons_succ]
      rw [ih]
      have : k + 1 + i = k + (i + 1) := by omega
      rw [this]

theorem hideFalse_isVisible (p : AbstractExpression) (ctx : ExecutorContext) (t : LogicalTile)
    (i : Nat) :
    (hideFalse p ctx t).IsVisible i
      = (t.IsVisible i && !(p.Evaluate (some ⟨t.rows, i⟩) none ctx).IsFalse) := by
  simp only [hideFalse, LogicalTile.IsVisible]
  rw [hideFalseFrom_getD, Nat.zero_add]

theorem isVisible_of_length_le (t : LogicalTile) (i : Nat) (h : t.visible_rows_.length ≤ i) :
    t.IsVisible i = false := by
  unfold LogicalTile.IsVisible
  simp [List.getD_eq_getElem?_getD, List.getElem?_eq_none h]

theorem LogicalTile.ext_isVisible (t u : LogicalTile) (hrows : t.rows = u.rows)
    (hlen : t.visible_rows_.length = u.visible_rows_.length)
    (hvis : ∀ i, t.IsVisible i = u.IsVisible i) : t = u := by
  cases t with
  | mk r v =>
    cases u with
    | mk r2 v2 =>
      simp only [LogicalTile.mk.injEq]
      refine ⟨hrows, ?_⟩
      apply List.ext_getElem hlen
      intro i h1 h2
      have := hvis i
      simp only [LogicalTile.IsVisible] at this
      simp only at h1 h2
      rw [List.getD_eq_getElem _ _ h1, List.getD_eq_getElem _ _ h2] at this
      exact this

theorem filterTuple_rows (p : AbstractExpression) (ctx : ExecutorContext) (k : Nat)
    (acc : LogicalTile × List Event) (a : Nat) :
    (filterTuple p ctx k acc a).1.rows = acc.1.rows := by
  unfold filterTuple
  split <;> [split; skip] <;> simp [LogicalTile.RemoveVisibility]

theorem filterTuple_length (p : AbstractExpression) (ctx : ExecutorContext) (k : Nat)
    (acc : LogicalTile × List Event) (a : Nat) :
    (filterTuple p ctx k acc a).1.visible_rows_.length = acc.1.visible_rows_.length := by
  unfold filterTuple
  split <;> [split; skip] <;> simp [LogicalTile.RemoveVisibility]

theorem filterTuple_isVisible (p : AbstractExpression) (ctx : ExecutorContext) (k : Nat)
    (acc : LogicalTile × List Event) (a i : Nat) :
    (filterTuple p ctx k acc a).1.IsVisible i
      = if i = a then
          (acc.1.IsVisible i && !(p.Evaluate (some ⟨acc.1.rows, i⟩) none ctx).IsFalse)
        else acc.1.IsVisible i := by
  unfold filterTuple
  by_cases hia : i = a
  · subst hia
    by_cases hv : acc.1.IsVisible i = true
    · by_cases hq : (p.Evaluate (some ⟨acc.1.rows, i⟩) none ctx).IsFalse = true
      · simp only [hv, hq, if_true]
        simp only [LogicalTile.IsVisible, LogicalTile.RemoveVisibility]
        simp only [List.getD_eq_getElem?_getD, List.getElem?_set, if_true]
        split <;> simp
      · simp [hv, hq]
    · simp [hv]
  · by_cases hv : acc.1.IsVisible a = true
    · by_cases hq : (p.Evaluate (some ⟨acc.1.rows, a⟩) none ctx).IsFalse = true
      · simp only [hv, hq, if_true, hia, if_false]
        simp only [LogicalTile.IsVisible, LogicalTile.RemoveVisibility]
        have : ¬ a = i := fun h => hia h.symm
        simp [List.getD_eq_getElem?_getD, List.getElem?_set, this]
      · simp [hv, hq, hia]
    · simp [hv, hia]


theorem foldl_filterTuple_rows (p : AbstractExpression) (ctx : ExecutorContext) (k : Nat)
    (ids : List Nat) (acc : LogicalTile × List Event) :
    (ids.foldl (filterTuple p ctx k) acc).1.rows = acc.1.rows := by
  induction ids generalizing acc with
  | nil => rfl
  | cons a ids ih => rw [List.foldl_cons, ih, filterTuple_rows]

theorem foldl_filterTuple_length (p : AbstractExpression) (ctx : ExecutorContext) (k : Nat)
    (ids : List Nat) (acc : LogicalTile × List Event) :
    (ids.foldl (filterTuple p ctx k) acc).1.visible_rows_.length
      = acc.1.visible_rows_.length := by
  induction ids generalizing acc with
  | nil => rfl
  | cons a ids ih => rw [List.foldl_cons, ih, filterTuple_length]

theorem foldl_filterTuple_isVisible (p : AbstractExpression) (ctx : ExecutorContext) (k : Nat)
    (ids : List Nat) (acc : LogicalTile × List Event) (i : Nat) :
    (ids.foldl (filterTuple p ctx k) acc).1.IsVisible i
      = if i ∈ ids then
          (acc.1.IsVisible i && !(p.Evaluate (some ⟨acc.1.rows, i⟩) none ctx).IsFalse)
        else acc.1.IsVisible i := by
  induction ids generalizing acc with
  | nil => simp
  | cons a ids ih =>
    rw [List.foldl_cons, ih, filterTuple_rows, filterTuple_isVisible]
    by_cases hia : i = a
    · subst hia
      by_cases hmem : i ∈ ids
      · simp [hmem, Bool.and_assoc]
      · simp [hmem]
    · by_cases hmem : i ∈ ids
      · simp [hmem, hia]
      · simp [hmem, hia]

theorem filterTile_eq_hideFalse (p : AbstractExpression) (ctx : ExecutorContext) (k : Nat)
    (t : LogicalTile) (log : List Event) :
    (filterTile p ctx k t log).1 = hideFalse p ctx t := by
  apply LogicalTile.ext_isVisible
  · simp [filterTile, foldl_filterTuple_rows, hideFalse]
  · simp [filterTile, foldl_filterTuple_length, hideFalse, hideFalseFrom_length]
  · intro i
    rw [hideFalse_isVisible]
    unfold filterTile
    rw [foldl_filterTuple_isVisible]
    by_cases hi : i < t.visible_rows_.length
    · simp [hi]
    · have hv : t.IsVisible i = false := isVisible_of_length_le t i (Nat.le_of_not_lt hi)
      simp [hi, hv]

/-! ## The loop of `DExecute` -/

theorem list_set_of_getElem? {α : Type} (l : List α) (i : Nat) (a : α) (h : l[i]? = some a) :
    l.set i a = l := by
  induction l generalizing i with
  | nil => rfl
  | cons x xs ih =>
    cases i with
    | zero => simp_all
    | succ i => simp_all

theorem applyPredicate_frame (s : IndexScanExecutor) :
    (applyPredicate s).predicate_ = s.predicate_ ∧
    (applyPredicate s).executor_context_ = s.executor_context_ ∧
    (applyPredicate s).result_itr = s.result_itr ∧
    (applyPredicate s).done_ = s.done_ ∧
    (applyPredicate s).output = s.output ∧
    (applyPredicate s).result.length = s.result.length := by
  unfold applyPredicate
  split <;> simp

theorem applyPredicate_result (s : IndexScanExecutor) (tile : LogicalTile)
    (h : s.result[s.result_itr]? = some tile) :
    (applyPredicate s).result
      = s.result.set s.result_itr (residual s.predicate_ s.executor_context_ tile) := by
  unfold applyPredicate
  split
  next p t hp ht =>
    rw [h] at ht
    cases ht
    simp [hp, residual, filterTile_eq_hideFalse]
  next hne =>
    cases hp : s.predicate_ with
    | some p => exact absurd h (by intro h2; exact hne p tile hp h2)
    | none =>
      simp only [residual]
      exact (list_set_of_getElem? _ _ _ h).symm


theorem pending_of_le (s : IndexScanExecutor) (h : s.result.length ≤ s.result_itr) :
    pending s = [] := by
  simp [pending, keptTiles, List.drop_of_length_le h]

theorem pending_of_lt (s : IndexScanExecutor) (tile : LogicalTile)
    (h : s.result[s.result_itr]? = some tile) :
    pending s
      = (if 0 < (residual s.predicate_ s.executor_context_ tile).GetTupleCount then
          [residual s.predicate_ s.executor_context_ tile] else [])
        ++ keptTiles s.predicate_ s.executor_context_ (s.result.drop (s.result_itr + 1)) := by
  obtain ⟨hlt, hget⟩ := List.getElem?_eq_some_iff.mp h
  unfold pending keptTiles
  rw [List.drop_eq_getElem_cons hlt, hget]
  simp only [List.map_cons, List.filter_cons]
  split <;> simp_all

/-- The loop of `DExecute`, described by the tiles still to be emitted. -/
theorem DExecute_while_pending (n : Nat) (s : IndexScanExecutor)
    (hn : s.result.length - s.result_itr ≤ n) :
    (DExecute_while n s).2.predicate_ = s.predicate_ ∧
    (DExecute_while n s).2.executor_context_ = s.executor_context_ ∧
    (DExecute_while n s).2.done_ = s.done_ ∧
    (pending s = [] → (DExecute_while n s).1 = false ∧ pending (DExecute_while n s).2 = []) ∧
    (∀ t ts, pending s = t :: ts →
      (DExecute_while n s).1 = true ∧ (DExecute_while n s).2.output = some t ∧
        pending (DExecute_while n s).2 = ts) := by
  induction n generalizing s with
  | zero =>
    have hle : s.result.length ≤ s.result_itr := by omega
    have hp := pending_of_le s hle
    simp [DExecute_while, hp]
  | succ n ih =>
    by_cases hlt : s.result_itr < s.result.length
    · obtain ⟨fp, fc, fi, fd, fo, fl⟩ := applyPredicate_frame s
      have hget : s.result[s.result_itr]? = some (s.result[s.result_itr]) := by
        exact List.getElem?_eq_getElem hlt
      have hres := applyPredicate_result s _ hget
      have hpend := pending_of_lt s _ hget
      generalize hT : residual s.predicate_ s.executor_context_ s.result[s.result_itr] = T
        at hres hpend
      have hget1 : (applyPredicate s).result[(applyPredicate s).result_itr]? = some T := by
        rw [fi, hres]
        exact List.getElem?_set_self hlt
      have hdrop : (applyPredicate s).result.drop (s.result_itr + 1)
          = s.result.drop (s.result_itr + 1) := by
        rw [hres]; exact List.drop_set_of_lt _ _ (Nat.lt_succ_self _)
      have hunfold : DExecute_while (n + 1) s
          = if T.GetTupleCount = 0 then
              DExecute_while n { applyPredicate s with result_itr := (applyPredicate s).result_itr + 1 }
            else
              (true, { applyPredicate s with output := some T, result_itr := (applyPredicate s).result_itr + 1 }) := by
        rw [DExecute_while]
        simp only [hlt, if_true, hget1]
      rw [hunfold]
      by_cases hc : T.GetTupleCount = 0
      · simp only [hc, if_true]
        have hpos : ¬ 0 < T.GetTupleCount := by omega
        simp only [hpos, if_false, List.nil_append] at hpend
        have ih2 := ih { applyPredicate s with result_itr := (applyPredicate s).result_itr + 1 }
          (by simp only [fl, fi]; omega)
        have hp2 : pending { applyPredicate s with result_itr := (applyPredicate s).result_itr + 1 }
            = pending s := by
          rw [hpend]
          simp only [pending, fp, fc, fi, hdrop]
        obtain ⟨i1, i2, i3, i4, i5⟩ := ih2
        rw [hp2] at i4 i5
        exact ⟨i1.trans fp, i2.trans fc, i3.trans fd, i4, i5⟩
      · simp only [hc, if_false]
        have hpos : 0 < T.GetTupleCount := by omega
        simp only [hpos, if_true, List.singleton_append] at hpend
        have hp2 : pending { applyPredicate s with output := some T, result_itr := (applyPredicate s).result_itr + 1 }
            = keptTiles s.predicate_ s.executor_context_ (s.result.drop (s.result_itr + 1)) := by
          simp only [pending, fp, fc, fi, hdrop]
        refine ⟨fp, fc, fd, ?_, ?_⟩
        · intro h0; rw [hpend] at h0; cases h0
        · intro t ts hts
          rw [hpend] at hts
          cases hts
          refine ⟨?_, ?_, hp2⟩ <;> simp
    · have hle : s.result.length ≤ s.result_itr := Nat.le_of_not_lt hlt
      have hp := pending_of_le s hle
      simp [DExecute_while, hlt, hp]

/-! ## `DInit` -/

theorem evaluateRuntimeKeys_frame (keys : List AbstractExpression) (k : Nat)
    (s : IndexScanExecutor) :
    (evaluateRuntimeKeys keys k s).node = s.node ∧
    (evaluateRuntimeKeys keys k s).executor_context_ = s.executor_context_ ∧
    (evaluateRuntimeKeys keys k s).predicate_ = s.predicate_ ∧
    (evaluateRuntimeKeys keys k s).children_ = s.children_ ∧
    (evaluateRuntimeKeys keys k s).index_ = s.index_ ∧
    (evaluateRuntimeKeys keys k s).result_itr = s.result_itr ∧
    (evaluateRuntimeKeys keys k s).done_ = s.done_ ∧
    (evaluateRuntimeKeys keys k s).column_ids_ = s.column_ids_ ∧
    (evaluateRuntimeKeys keys k s).key_column_ids_ = s.key_column_ids_ ∧
    (evaluateRuntimeKeys keys k s).expr_types_ = s.expr_types_ ∧
    (evaluateRuntimeKeys keys k s).runtime_keys_ = s.runtime_keys_ ∧
    (evaluateRuntimeKeys keys k s).key_ready = s.key_ready ∧
    (evaluateRuntimeKeys keys k s).result = s.result ∧
    (evaluateRuntimeKeys keys k s).output = s.output := by
  induction keys generalizing k s with
  | nil => simp [evaluateRuntimeKeys]
  | cons e es ih =>
    rw [evaluateRuntimeKeys]
    obtain ⟨h1, h2, h3, h4, h5, h6, h7, h8, h9, h10, h11, h12, h13, h14⟩ := ih (k + 1)
      { s with values_ := s.values_ ++ [e.Evaluate none none s.executor_context_],
               log := s.log ++ [Event.evaluateRuntimeKey k none] }
    exact ⟨h1, h2, h3, h4, h5, h6, h7, h8, h9, h10, h11, h12, h13, h14⟩

theorem evaluateRuntimeKeys_values (keys : List AbstractExpression) (k : Nat)
    (s : IndexScanExecutor) :
    (evaluateRuntimeKeys keys k s).values_
      = s.values_ ++ keys.map (fun e => e.Evaluate none none s.executor_context_) := by
  induction keys generalizing k s with
  | nil => simp [evaluateRuntimeKeys]
  | cons e es ih =>
    rw [evaluateRuntimeKeys, ih]
    simp

theorem evaluateRuntimeKeys_log (keys : List AbstractExpression) (k : Nat)
    (s : IndexScanExecutor) :
    (evaluateRuntimeKeys keys k s).log
      = s.log ++ (List.range keys.length).map (fun i => Event.evaluateRuntimeKey (k + i) none) := by
  induction keys generalizing k s with
  | nil => simp [evaluateRuntimeKeys]
  | cons e es ih =>
    rw [evaluateRuntimeKeys, ih]
    simp only [List.length_cons, List.range_succ_eq_map, List.map_cons, List.map_map,
      List.append_assoc, List.singleton_append, Nat.add_zero]
    congr 2
    apply List.map_congr_left
    intro i _
    simp only [Function.comp]
    congr 1
    omega

theorem DInit_keys_frame (s : IndexScanExecutor) :
    (DInit_keys s).node = s.node ∧
    (DInit_keys s).executor_context_ = s.executor_context_ ∧
    (DInit_keys s).predicate_ = s.predicate_ ∧
    (DInit_keys s).children_ = s.children_ ∧
    (DInit_keys s).index_ = s.index_ ∧
    (DInit_keys s).result_itr = s.result_itr ∧
    (DInit_keys s).done_ = s.done_ ∧
    (DInit_keys s).column_ids_ = s.column_ids_ ∧
    (DInit_keys s).key_column_ids_ = s.key_column_ids_ ∧
    (DInit_keys s).expr_types_ = s.expr_types_ ∧
    (DInit_keys s).runtime_keys_ = s.runtime_keys_ ∧
    (DInit_keys s).result = s.result ∧
    (DInit_keys s).output = s.output := by
  unfold DInit_keys
  split
  · obtain ⟨h1, h2, h3, h4, h5, h6, h7, h8, h9, h10, h11, _, h13, h14⟩ :=
      evaluateRuntimeKeys_frame s.runtime_keys_ 0 { s with values_ := [] }
    exact ⟨h1, h2, h3, h4, h5, h6, h7, h8, h9, h10, h11, h13, h14⟩
  · simp

theorem DInit_columns_frame (s : IndexScanExecutor) :
    (DInit_columns s).node = s.node ∧
    (DInit_columns s).executor_context_ = s.executor_context_ ∧
    (DInit_columns s).predicate_ = s.predicate_ ∧
    (DInit_columns s).children_ = s.children_ ∧
    (DInit_columns s).index_ = s.index_ ∧
    (DInit_columns s).result_itr = s.result_itr ∧
    (DInit_columns s).done_ = s.done_ ∧
    (DInit_columns s).key_column_ids_ = s.key_column_ids_ ∧
    (DInit_columns s).expr_types_ = s.expr_types_ ∧
    (DInit_columns s).values_ = s.values_ ∧
    (DInit_columns s).runtime_keys_ = s.runtime_keys_ ∧
    (DInit_columns s).key_ready = s.key_ready ∧
    (DInit_columns s).result = s.result ∧
    (DInit_columns s).output = s.output ∧
    (DInit_columns s).log = s.log := by
  unfold DInit_columns
  split
  · split <;> simp
  · simp

/-- When `DInit` succeeds, and what it returns then. -/
theorem DInit_eq_ok (status : Bool) (s s1 : IndexScanExecutor)
    (h : DInit status s = .ok (true, s1)) :
    status = true ∧ s.children_ = 0 ∧ s.node.index.isNone = false ∧
    (s.node.runtime_keys.length ≠ 0 → s.node.runtime_keys.length = s.node.values.length) ∧
    s1 = DInit_columns (DInit_keys (DInit_grab s)) := by
  unfold DInit at h
  split at h
  · cases h
  · split at h
    · cases h
    · split at h
      · cases h
      · split at h
        · cases h
        · rename_i h1 h2 h3 h4
          simp only [Except.ok.injEq, Prod.mk.injEq, true_and] at h
          simp only [DInit_grab] at h3 h4
          refine ⟨by simpa using h1, by simpa using h2, Bool.eq_false_iff.mpr h3, ?_, h.symm⟩
          intro hk
          by_contra hne
          exact h4 ⟨hk, hne⟩

/-- What a successful `DInit` leaves behind. -/
theorem DInit_ok (status : Bool) (s s1 : IndexScanExecutor)
    (h : DInit status s = .ok (true, s1)) :
    s1.done_ = false ∧ s1.result_itr = START_OID ∧ s1.index_ = s.node.index ∧
    s1.index_.isNone = false ∧ s1.predicate_ = s.predicate_ ∧
    s1.executor_context_ = s.executor_context_ ∧ s1.node = s.node ∧
    s1.children_ = s.children_ ∧ s1.result = s.result ∧ s1.output = s.output ∧
    s1.key_column_ids_ = s.node.key_column_ids ∧ s1.expr_types_ = s.node.expr_types := by
  obtain ⟨_, _, hidx, _, rfl⟩ := DInit_eq_ok status s s1 h
  obtain ⟨c1, c2, c3, c4, c5, c6, c7, c8, c9, _, _, _, c13, c14, _⟩ :=
    DInit_columns_frame (DInit_keys (DInit_grab s))
  obtain ⟨k1, k2, k3, k4, k5, k6, k7, _, k9, k10, _, k12, k13⟩ := DInit_keys_frame (DInit_grab s)
  rw [c7, c6, c5, c3, c2, c1, c4, c13, c14, c8, c9, k7, k6, k5, k3, k2, k1, k4, k12, k13, k9, k10]
  simp [DInit_grab, hidx]

/-! ## The loop of `DExecute`, tile by tile -/

/-- The loop of `DExecute`, tile by tile: the cursor only moves forward and
stays within `result`, the tiles it passed are the residual filter of what
they were, the others are untouched. -/
theorem DExecute_while_result (n : Nat) (s : IndexScanExecutor)
    (hn : s.result.length - s.result_itr ≤ n) :
    s.result_itr ≤ (DExecute_while n s).2.result_itr ∧
    (DExecute_while n s).2.result_itr ≤ max s.result_itr s.result.length ∧
    (DExecute_while n s).2.result.length = s.result.length ∧
    ∀ j, (DExecute_while n s).2.result[j]?
      = if s.result_itr ≤ j ∧ j < (DExecute_while n s).2.result_itr then
          s.result[j]?.map (residual s.predicate_ s.executor_context_)
        else s.result[j]? := by
  induction n generalizing s with
  | zero =>
    have hle : s.result.length ≤ s.result_itr := by omega
    refine ⟨by simp [DExecute_while], by simp [DExecute_while], by simp [DExecute_while], ?_⟩
    intro j
    have : ¬ (s.result_itr ≤ j ∧ j < s.result_itr) := by omega
    simp only [DExecute_while, this, if_false]
  | succ n ih =>
    by_cases hlt : s.result_itr < s.result.length
    · obtain ⟨fp, fc, fi, fd, fo, fl⟩ := applyPredicate_frame s
      have hget : s.result[s.result_itr]? = some (s.result[s.result_itr]) := by
        exact List.getElem?_eq_getElem hlt
      have hres := applyPredicate_result s _ hget
      generalize hT : residual s.predicate_ s.executor_context_ s.result[s.result_itr] = T
        at hres
      have hget1 : (applyPredicate s).result[(applyPredicate s).result_itr]? = some T := by
        rw [fi, hres]
        exact List.getElem?_set_self hlt
      have hset : ∀ j, (applyPredicate s).result[j]?
          = if j = s.result_itr then
              s.result[j]?.map (residual s.predicate_ s.executor_context_)
            else s.result[j]? := by
        intro j
        by_cases hj : j = s.result_itr
        · subst hj
          rw [← fi, hget1, fi, hget, if_pos rfl, Option.map_some', hT]
        · rw [hres, if_neg hj, List.getElem?_set_ne (fun h => hj h.symm)]
      have hunfold : DExecute_while (n + 1) s
          = if T.GetTupleCount = 0 then
              DExecute_while n { applyPredicate s with result_itr := (applyPredicate s).result_itr + 1 }
            else
              (true, { applyPredicate s with output := some T, result_itr := (applyPredicate s).result_itr + 1 }) := by
        rw [DExecute_while]
        simp only [hlt, if_true, hget1]
      rw [hunfold]
      by_cases hc : T.GetTupleCount = 0
      · simp only [hc, if_true]
        obtain ⟨S2, hS2⟩ : ∃ S2, S2 = { applyPredicate s with
            result_itr := (applyPredicate s).result_itr + 1 } := ⟨_, rfl⟩
        have e1 : S2.result_itr = s.result_itr + 1 := by rw [hS2, ← fi]
        have e2 : S2.result = (applyPredicate s).result := by rw [hS2]
        have e3 : S2.predicate_ = s.predicate_ := by rw [hS2, ← fp]
        have e4 : S2.executor_context_ = s.executor_context_ := by rw [hS2, ← fc]
        rw [← hS2]
        obtain ⟨i1, i2, i3, i4⟩ := ih S2 (by rw [e1, e2, fl]; omega)
        rw [e1] at i1
        rw [e1, e2, fl] at i2
        rw [e2, fl] at i3
        simp only [e1, e2, e3, e4] at i4
        refine ⟨by omega, by omega, i3, ?_⟩
        intro j
        rw [i4 j, hset j]
        by_cases hj : j = s.result_itr
        · have h1 : ¬ (s.result_itr + 1 ≤ j ∧ j < (DExecute_while n S2).2.result_itr) := by omega
          have h2 : s.result_itr ≤ j ∧ j < (DExecute_while n S2).2.result_itr := by omega
          rw [if_neg h1, if_pos hj, if_pos h2]
        · rw [if_neg hj]
          by_cases h1 : s.result_itr + 1 ≤ j ∧ j < (DExecute_while n S2).2.result_itr
          · have h2 : s.result_itr ≤ j ∧ j < (DExecute_while n S2).2.result_itr := by omega
            rw [if_pos h1, if_pos h2]
          · have h2 : ¬ (s.result_itr ≤ j ∧ j < (DExecute_while n S2).2.result_itr) := by omega
            rw [if_neg h1, if_neg h2]
      · simp only [hc, if_false, fi, fl]
        refine ⟨by omega, by omega, trivial, ?_⟩
        intro j
        rw [hset j]
        by_cases hj : j = s.result_itr
        · have h2 : s.result_itr ≤ j ∧ j < s.result_itr + 1 := by omega
          rw [if_pos hj, if_pos h2]
        · have h2 : ¬ (s.result_itr ≤ j ∧ j < s.result_itr + 1) := by omega
          rw [if_neg hj, if_neg h2]
    · have hle : s.result.length ≤ s.result_itr := by omega
      have hw : DExecute_while (n + 1) s = (false, s) := by
        rw [DExecute_while]; simp only [hlt, if_false]
      rw [hw]
      refine ⟨Nat.le_refl _, Nat.le_max_left _ _, rfl, ?_⟩
      intro j
      have : ¬ (s.result_itr ≤ j ∧ j < s.result_itr) := by omega
      simp only [this, if_false]

/-- A pull that returned true has set a tile with a visible row as output,
and that tile is the one just before the cursor. -/
theorem DExecute_while_true (n : Nat) (s : IndexScanExecutor)
    (h : (DExecute_while n s).1 = true) :
    ∃ t, (DExecute_while n s).2.output = some t ∧ 0 < t.GetTupleCount ∧
      (DExecute_while n s).2.result[(DExecute_while n s).2.result_itr - 1]? = some t := by
  induction n generalizing s with
  | zero => simp [DExecute_while] at h
  | succ n ih =>
    rw [DExecute_while] at h ⊢
    by_cases hlt : s.result_itr < s.result.length
    · simp only [hlt, if_true] at h ⊢
      cases hg : (applyPredicate s).result[(applyPredicate s).result_itr]? with
      | none => simp [hg] at h
      | some tile =>
        simp only [hg] at h ⊢
        by_cases hc : tile.GetTupleCount = 0
        · simp only [hc, if_true] at h ⊢
          exact ih _ h
        · simp only [hc, if_false] at h ⊢
          exact ⟨tile, rfl, by omega, by simpa using hg⟩
    · simp [hlt] at h

/-! ## `ExecIndexLookup` and `DExecute` -/

/-- The state `ExecIndexLookup` returns with `true`. -/
theorem ExecIndexLookup_true (F : LogicalTileFactory) (s s1 : IndexScanExecutor)
    (h : ExecIndexLookup F s = .ok (true, s1)) :
    ∃ index, s.index_ = some index ∧ s.done_ = false ∧ tupleLocations index s ≠ [] ∧
      s1.done_ = true ∧ s1.result_itr = s.result_itr ∧ s1.predicate_ = s.predicate_ ∧
      s1.executor_context_ = s.executor_context_ ∧
      s1.result = F.WrapTileGroups (tupleLocations index s) s.column_ids_
        s.executor_context_.transaction.txn_id s.executor_context_.transaction.last_commit_id ∧
      s1.log = s.log ++ [scanCall s] := by
  unfold ExecIndexLookup at h
  split at h
  · cases h
  · rename_i hd
    split at h
    · cases h
    · rename_i index hi
      dsimp only at h
      split at h
      · simp at h
      · rename_i hl
        simp only [Except.ok.injEq, Prod.mk.injEq, true_and] at h
        subst h
        refine ⟨index, hi, by simpa using hd, ?_, rfl, rfl, rfl, rfl, rfl, rfl⟩
        intro h0
        exact hl (by rw [h0]; rfl)

/-- The state `ExecIndexLookup` returns with `false`: nothing but the log has
changed, and the index returned no location. -/
theorem ExecIndexLookup_false (F : LogicalTileFactory) (s s1 : IndexScanExecutor)
    (h : ExecIndexLookup F s = .ok (false, s1)) :
    ∃ index, s.index_ = some index ∧ s.done_ = false ∧ tupleLocations index s = [] ∧
      s1 = { s with log := s.log ++ [scanCall s] } := by
  unfold ExecIndexLookup at h
  split at h
  · cases h
  · rename_i hd
    split at h
    · cases h
    · rename_i index hi
      dsimp only at h
      split at h
      · rename_i hl
        simp only [Except.ok.injEq, Prod.mk.injEq, true_and] at h
        exact ⟨index, hi, by simpa using hd, List.length_eq_zero.mp hl, h.symm⟩
      · simp at h

theorem DExecute_lookup_done (F : LogicalTileFactory) (s : IndexScanExecutor)
    (hd : s.done_ = true) : DExecute_lookup F s = .ok (true, s) := by
  simp [DExecute_lookup, hd]

theorem DExecute_lookup_true (F : LogicalTileFactory) (s s1 : IndexScanExecutor)
    (h : DExecute_lookup F s = .ok (true, s1)) :
    s1.done_ = true ∧ s1.predicate_ = s.predicate_ ∧
      s1.executor_context_ = s.executor_context_ ∧ s1.result_itr = s.result_itr := by
  unfold DExecute_lookup at h
  split at h
  · obtain ⟨_, _, _, _, h1, h2, h3, h4, _, _⟩ := ExecIndexLookup_true F s s1 h
    exact ⟨h1, h3, h4, h2⟩
  · rename_i hd
    simp only [Except.ok.injEq, Prod.mk.injEq, true_and] at h
    subst h
    exact ⟨by simpa using hd, rfl, rfl, rfl⟩

/-- A pull either stops at the lookup, or runs the loop from the state the
lookup left. -/
theorem DExecute_inv (F : LogicalTileFactory) (s s2 : IndexScanExecutor) (b : Bool)
    (h : DExecute F s = .ok (b, s2)) :
    (b = false ∧ DExecute_lookup F s = .ok (false, s2)) ∨
    (∃ s1, DExecute_lookup F s = .ok (true, s1) ∧
      (b, s2) = DExecute_while (s1.result.length - s1.result_itr) s1) := by
  unfold DExecute at h
  split at h
  · cases h
  · rename_i s1 hl
    simp only [Except.ok.injEq, Prod.mk.injEq] at h
    obtain ⟨hb, hs⟩ := h
    subst hb hs
    exact Or.inl ⟨rfl, hl⟩
  · rename_i s1 hl
    split at h
    · cases h
    · simp only [Except.ok.injEq] at h
      exact Or.inr ⟨s1, hl, h.symm⟩

theorem DExecute_of_lookup (F : LogicalTileFactory) (s s1 : IndexScanExecutor)
    (h : DExecute_lookup F s = .ok (true, s1)) :
    DExecute F s = .ok (DExecute_while (s1.result.length - s1.result_itr) s1) := by
  have hd := (DExecute_lookup_true F s s1 h).1
  unfold DExecute
  rw [h]
  simp [hd]

theorem DExecute_done (F : LogicalTileFactory) (s : IndexScanExecutor) (hd : s.done_ = true) :
    DExecute F s = .ok (DExecute_while (s.result.length - s.result_itr) s) :=
  DExecute_of_lookup F s s (DExecute_lookup_done F s hd)

theorem residual_isVisible (q : Option AbstractExpression) (ctx : ExecutorContext)
    (t : LogicalTile) (i : Nat) (h : (residual q ctx t).IsVisible i = true) :
    t.IsVisible i = true := by
  cases q with
  | none => exact h
  | some p =>
    simp only [residual, hideFalse_isVisible, Bool.and_eq_true] at h
    exact h.1

/-! ## C1 -/

/-- C1 (no empty tiles): whenever `DExecute` returns true, the tile it has just
set as current output has at least one visible row; that tile is the tile of
`result` the cursor has just passed. -/
theorem DExecute_no_empty_tile (F : LogicalTileFactory) (s s2 : IndexScanExecutor)
    (h : DExecute F s = .ok (true, s2)) :
    ∃ t, s2.output = some t ∧ 0 < t.GetTupleCount ∧ s2.result[s2.result_itr - 1]? = some t := by
  rcases DExecute_inv F s s2 true h with ⟨hb, _⟩ | ⟨s1, _, hw⟩
  · cases hb
  · have h1 : (DExecute_while (s1.result.length - s1.result_itr) s1).1 = true := by rw [← hw]
    have := DExecute_while_true _ s1 h1
    rw [← hw] at this
    exact this

/-- C1, on the example of the spec: the first pull returns true and its output
holds a visible row. -/
theorem DExecute_no_empty_tile_witness :
    DExecute exampleFactory (exampleInitialized (some exampleIndex))
      = .ok (true, examplePulled (some exampleIndex)) ∧
    ∃ t, (examplePulled (some exampleIndex)).output = some t ∧ 0 < t.GetTupleCount ∧
      (examplePulled (some exampleIndex)).result[
        (examplePulled (some exampleIndex)).result_itr - 1]? = some t :=
  ⟨rfl, DExecute_no_empty_tile exampleFactory (exampleInitialized (some exampleIndex))
    (examplePulled (some exampleIndex)) rfl⟩

/-! ## C3 -/

/-- C3 (three-valued residual filter): with a predicate configured, let `s1`
be the state in which a pull enters its loop (the state before the pull when
the probe was done earlier, otherwise that state with the freshly materialised
result). For every tile the pull examines (from the cursor at loop entry up to
the cursor afterwards) and every row visible in it at loop entry, the row is
hidden after the pull exactly when the predicate evaluates to a definite false
on it; on true and on unknown the row stays visible. -/
theorem DExecute_three_valued_filter (F : LogicalTileFactory) (s s1 s2 : IndexScanExecutor)
    (b : Bool) (p : AbstractExpression) (hp : s.predicate_ = some p)
    (hentry : DExecute_lookup F s = .ok (true, s1)) (h : DExecute F s = .ok (b, s2))
    (j : Nat) (tile : LogicalTile) (hlo : s1.result_itr ≤ j) (hhi : j < s2.result_itr)
    (htile : s1.result[j]? = some tile) :
    ∃ tile2, s2.result[j]? = some tile2 ∧
      ∀ i, tile.IsVisible i = true →
        (tile2.IsVisible i = false ↔
          (p.Evaluate (some ⟨tile.rows, i⟩) none s.executor_context_).IsFalse = true) := by
  rw [DExecute_of_lookup F s s1 hentry] at h
  simp only [Except.ok.injEq] at h
  obtain ⟨_, hp1, hc1, _⟩ := DExecute_lookup_true F s s1 hentry
  obtain ⟨_, _, _, hres⟩ := DExecute_while_result (s1.result.length - s1.result_itr) s1
    (Nat.le_refl _)
  rw [h] at hres
  have hj := hres j
  simp only at hj
  rw [if_pos ⟨hlo, hhi⟩, htile, hp1, hc1, hp] at hj
  refine ⟨_, hj, ?_⟩
  intro i hv
  simp only [residual, hideFalse_isVisible, hv, Bool.true_and]
  cases (p.Evaluate (some ⟨tile.rows, i⟩) none s.executor_context_).IsFalse <;> simp

/-- C3, on the example of the spec: the first pull examines the tile with rows
1 and 2 under the predicate `id > 1`. -/
theorem DExecute_three_valued_filter_witness :
    DExecute exampleFactory (exampleInitialized (some exampleIndex))
      = .ok (true, examplePulled (some exampleIndex)) ∧
    ∃ tile2, (examplePulled (some exampleIndex)).result[0]? = some tile2 ∧
      ∀ i, exampleTile.IsVisible i = true →
        (tile2.IsVisible i = false ↔
          (idGreaterThanOne.Evaluate (some ⟨exampleTile.rows, i⟩) none
            (exampleInitialized (some exampleIndex)).executor_context_).IsFalse = true) :=
  ⟨rfl, DExecute_three_valued_filter exampleFactory (exampleInitialized (some exampleIndex))
    (exampleProbed (some exampleIndex)) (examplePulled (some exampleIndex)) true
    idGreaterThanOne rfl rfl rfl 0 exampleTile (by decide) (by decide) rfl⟩

/-! ## Runs of pulls on a probed executor -/

theorem expectedPulls_nil (m : Nat) :
    expectedPulls [] (m + 1) = (false, none) :: expectedPulls [] m := by
  simp [expectedPulls, List.replicate_succ]

theorem expectedPulls_cons (t : LogicalTile) (ts : List LogicalTile) (m : Nat) :
    expectedPulls (t :: ts) (m + 1) = (true, some t) :: expectedPulls ts m := by
  simp [expectedPulls]

/-- On a probed executor, pulls emit the pending tiles one by one, then
report exhaustion; `done_` stays set. -/
theorem pulls_done (F : LogicalTileFactory) (m : Nat) (s : IndexScanExecutor)
    (hd : s.done_ = true) :
    ∃ s2, pulls F m s = .ok (expectedPulls (pending s) m, s2) ∧ s2.done_ = true := by
  induction m generalizing s with
  | zero => exact ⟨s, by simp [pulls, expectedPulls], hd⟩
  | succ m ih =>
    obtain ⟨_, _, h3, h4, h5⟩ :=
      DExecute_while_pending (s.result.length - s.result_itr) s (Nat.le_refl _)
    have hd1 : (DExecute_while (s.result.length - s.result_itr) s).2.done_ = true := by
      rw [h3, hd]
    obtain ⟨s2, hs2, hd2⟩ := ih _ hd1
    refine ⟨s2, ?_, hd2⟩
    rw [pulls, DExecute_done F s hd]
    simp only [hs2]
    cases hp : pending s with
    | nil =>
      obtain ⟨hb, hnil⟩ := h4 hp
      rw [hnil, expectedPulls_nil]
      simp [emitted, hb]
    | cons t ts =>
      obtain ⟨hb, ho, hts⟩ := h5 t ts hp
      rw [hts, expectedPulls_cons]
      simp [emitted, hb, ho]

/-- On a probed executor, pulls never reveal a row: every tile of `result`
keeps its place, and its visible rows afterwards were visible before. -/
theorem pulls_done_monotone (F : LogicalTileFactory) (m : Nat) (s s2 : IndexScanExecutor)
    (rs : List (Bool × Option LogicalTile)) (hd : s.done_ = true)
    (h : pulls F m s = .ok (rs, s2)) :
    s2.result.length = s.result.length ∧
    ∀ (j : Nat) (t2 : LogicalTile), s2.result[j]? = some t2 →
      ∃ t : LogicalTile, s.result[j]? = some t ∧
        ∀ i : Nat, t2.IsVisible i = true → t.IsVisible i = true := by
  induction m generalizing s rs with
  | zero =>
    simp only [pulls, Except.ok.injEq, Prod.mk.injEq] at h
    obtain ⟨_, rfl⟩ := h
    exact ⟨rfl, fun j t2 ht => ⟨t2, ht, fun _ hv => hv⟩⟩
  | succ m ih =>
    rw [pulls, DExecute_done F s hd] at h
    simp only at h
    obtain ⟨_, _, h3, _, _⟩ :=
      DExecute_while_pending (s.result.length - s.result_itr) s (Nat.le_refl _)
    obtain ⟨_, _, hlen, hres⟩ :=
      DExecute_while_result (s.result.length - s.result_itr) s (Nat.le_refl _)
    have hd1 : (DExecute_while (s.result.length - s.result_itr) s).2.done_ = true := by
      rw [h3, hd]
    cases hrec : pulls F m (DExecute_while (s.result.length - s.result_itr) s).2 with
    | error f => rw [hrec] at h; cases h
    | ok x =>
      obtain ⟨rs1, s3⟩ := x
      rw [hrec] at h
      simp only [Except.ok.injEq, Prod.mk.injEq] at h
      obtain ⟨_, rfl⟩ := h
      obtain ⟨l1, m1⟩ := ih _ rs1 hd1 hrec
      refine ⟨l1.trans hlen, ?_⟩
      intro j t2 ht2
      obtain ⟨t1, ht1, hv1⟩ := m1 j t2 ht2
      rw [hres j] at ht1
      split at ht1
      · cases hsj : s.result[j]? with
        | none => rw [hsj] at ht1; cases ht1
        | some t =>
          rw [hsj] at ht1
          simp only [Option.map_some', Option.some.injEq] at ht1
          subst ht1
          exact ⟨t, rfl, fun i hv => residual_isVisible _ _ _ _ (hv1 i hv)⟩
      · exact ⟨t1, ht1, hv1⟩

/-! ## C2 -/

/-- The first pull after `DInit`, when the index returns locations, is the
pull of the probed executor. -/
theorem DExecute_first (F : LogicalTileFactory) (s : IndexScanExecutor) (index : Index)
    (hd : s.done_ = false) (hi : s.index_ = some index) (hl : tupleLocations index s ≠ []) :
    ∃ s1, DExecute F s = DExecute F s1 ∧ s1.done_ = true ∧ s1.result_itr = s.result_itr ∧
      s1.predicate_ = s.predicate_ ∧ s1.executor_context_ = s.executor_context_ ∧
      s1.result = F.WrapTileGroups (tupleLocations index s) s.column_ids_
        s.executor_context_.transaction.txn_id s.executor_context_.transaction.last_commit_id ∧
      s1.log = s.log ++ [scanCall s] := by
  have hlen : ¬ (tupleLocations index s).length = 0 := fun h => hl (List.length_eq_zero.mp h)
  have hlook : ExecIndexLookup F s = .ok (true,
      { s with log := s.log ++ [scanCall s],
               result := F.WrapTileGroups (tupleLocations index s) s.column_ids_
                 s.executor_context_.transaction.txn_id
                 s.executor_context_.transaction.last_commit_id,
               done_ := true }) := by
    simp [ExecIndexLookup, hd, hi, hlen]
  have hlook2 : DExecute_lookup F s = ExecIndexLookup F s := by simp [DExecute_lookup, hd]
  rw [hlook] at hlook2
  obtain ⟨_, _, _, _, e1, e2, e3, e4, e5, e6⟩ := ExecIndexLookup_true F s _ hlook
  refine ⟨_, ?_, e1, e2, e3, e4, ?_, e6⟩
  · rw [DExecute_done F _ e1]
    exact DExecute_of_lookup F s _ hlook2
  · rfl

/-- C2 (output sequence): after one `DInit`, when the probe of the first pull
returns locations and the factory wraps them into the tiles `t_0 .. t_{n-1}`,
any number `m` of pulls returns: `true` with the tile emitted, for the first
tiles among those `t_i` that keep a visible row once the residual predicate has
hidden the rows on which it is false (`keptTiles`), filtered, in the original
order and each once; then `false` for every further pull. -/
theorem pulls_output_sequence (F : LogicalTileFactory) (status : Bool)
    (s0 s : IndexScanExecutor) (index : Index) (m : Nat)
    (hinit : DInit status s0 = .ok (true, s)) (hi : s.index_ = some index)
    (hl : tupleLocations index s ≠ []) :
    ∃ s2, pulls F m s =
      .ok (expectedPulls
            (keptTiles s.predicate_ s.executor_context_
              (F.WrapTileGroups (tupleLocations index s) s.column_ids_
                s.executor_context_.transaction.txn_id
                s.executor_context_.transaction.last_commit_id)) m, s2) := by
  obtain ⟨hd, hitr, _⟩ := DInit_ok status s0 s hinit
  cases m with
  | zero => exact ⟨s, by simp [pulls, expectedPulls]⟩
  | succ m =>
    obtain ⟨s1, hex, hd1, hitr1, hp1, hc1, hres1, _⟩ := DExecute_first F s index hd hi hl
    obtain ⟨s2, hs2, _⟩ := pulls_done F (m + 1) s1 hd1
    refine ⟨s2, ?_⟩
    have hpend : pending s1 = keptTiles s.predicate_ s.executor_context_
        (F.WrapTileGroups (tupleLocations index s) s.column_ids_
          s.executor_context_.transaction.txn_id
          s.executor_context_.transaction.last_commit_id) := by
      simp [pending, hp1, hc1, hres1, hitr1, hitr, START_OID]
    rw [← hpend, ← hs2, pulls, pulls, hex]

/-- C2, on the example of the spec: one tile with the rows 1 and 2 and the
predicate `id > 1` give one true pull that emits the tile with only row 2
visible, then a false pull. -/
theorem pulls_output_sequence_witness :
    DInit true (exampleExecutor (some exampleIndex))
      = .ok (true, exampleInitialized (some exampleIndex)) ∧
    ∃ s2, pulls exampleFactory 2 (exampleInitialized (some exampleIndex))
      = .ok ([(true, some ⟨[[Value.integer 1], [Value.integer 2]], [false, true]⟩),
              (false, none)], s2) :=
  ⟨rfl, pulls_output_sequence exampleFactory true (exampleExecutor (some exampleIndex))
    (exampleInitialized (some exampleIndex)) exampleIndex 2 rfl rfl (by decide)⟩

/-! ## C7 -/

/-- C7 (monotonic hiding): on an executor whose result is memoized (`done_` is
set), after any number of pulls every tile of the result is still in its place
and each of its visible rows was visible before; so a row that was hidden is
hidden after every later pull. -/
theorem pulls_monotonic_hiding (F : LogicalTileFactory) (m : Nat) (s s2 : IndexScanExecutor)
    (rs : List (Bool × Option LogicalTile)) (hd : s.done_ = true)
    (h : pulls F m s = .ok (rs, s2)) (j : Nat) (t : LogicalTile) (ht : s.result[j]? = some t) :
    ∃ t2, s2.result[j]? = some t2 ∧
      (∀ i, t2.IsVisible i = true → t.IsVisible i = true) ∧
      (∀ i, t.IsVisible i = false → t2.IsVisible i = false) := by
  obtain ⟨hlen, hmono⟩ := pulls_done_monotone F m s s2 rs hd h
  have hj : j < s2.result.length := by
    rw [hlen]; exact (List.getElem?_eq_some_iff.mp ht).1
  obtain ⟨t1, ht1, hv⟩ := hmono j _ (List.getElem?_eq_getElem hj)
  rw [ht] at ht1
  cases ht1
  refine ⟨_, List.getElem?_eq_getElem hj, hv, ?_⟩
  intro i hi
  cases h2 : (s2.result[j]).IsVisible i with
  | false => rfl
  | true => rw [hv i h2] at hi; cases hi

/-- C7, on the example of the spec: the pull on the probed executor hides row 0
of the tile and reveals nothing. -/
theorem pulls_monotonic_hiding_witness :
    (exampleProbed (some exampleIndex)).done_ = true ∧
    ∃ t2, (examplePulled (some exampleIndex)).result[0]? = some t2 ∧
      (∀ i, t2.IsVisible i = true → exampleTile.IsVisible i = true) ∧
      (∀ i, exampleTile.IsVisible i = false → t2.IsVisible i = false) :=
  ⟨rfl, pulls_monotonic_hiding exampleFactory 1 (exampleProbed (some exampleIndex))
    (examplePulled (some exampleIndex)) [(true, some ⟨exampleTile.rows, [false, true]⟩)]
    rfl rfl 0 exampleTile rfl⟩

/-! ## C9 and lemmas on `DInit` -/

theorem DInit_grab_frame (s : IndexScanExecutor) :
    (DInit_grab s).node = s.node ∧ (DInit_grab s).children_ = s.children_ ∧
    (DInit_grab s).key_ready = s.key_ready ∧ (DInit_grab s).log = s.log ∧
    (DInit_grab s).runtime_keys_ = s.node.runtime_keys ∧
    (DInit_grab s).values_ = s.node.values ∧
    (DInit_grab s).executor_context_ = s.executor_context_ :=
  ⟨rfl, rfl, rfl, rfl, rfl, rfl, rfl⟩

/-- A well-formed plan makes `DInit` succeed. -/
theorem DInit_success (s : IndexScanExecutor) (hc : s.children_ = 0)
    (hi : s.node.index.isNone = false)
    (hv : s.node.runtime_keys.length ≠ 0 → s.node.runtime_keys.length = s.node.values.length) :
    DInit true s = .ok (true, DInit_columns (DInit_keys (DInit_grab s))) := by
  have h4 : ¬ ((DInit_grab s).runtime_keys_.length ≠ 0 ∧
      (DInit_grab s).runtime_keys_.length ≠ (DInit_grab s).values_.length) := by
    intro ⟨a, b⟩
    exact b (hv a)
  have h3 : ¬ (DInit_grab s).index_.isNone = true := by
    show ¬ s.node.index.isNone = true
    rw [hi]; simp
  unfold DInit
  rw [if_neg (by simp), if_neg (by simp [hc]), if_neg h3, if_neg h4]

/-- The first evaluation of the runtime keys: one evaluation per key, in
order, each against no tuple. -/
theorem DInit_keys_first (s : IndexScanExecutor) (hk : s.runtime_keys_.length ≠ 0)
    (hr : s.key_ready = false) :
    (DInit_keys s).log
      = s.log ++ (List.range s.runtime_keys_.length).map
          (fun i => Event.evaluateRuntimeKey i none) ∧
    (DInit_keys s).values_
      = s.runtime_keys_.map (fun e => e.Evaluate none none s.executor_context_) ∧
    (DInit_keys s).key_ready = true := by
  unfold DInit_keys
  rw [if_pos ⟨hk, hr⟩]
  refine ⟨?_, ?_, rfl⟩
  · show (evaluateRuntimeKeys s.runtime_keys_ 0 { s with values_ := [] }).log = _
    rw [evaluateRuntimeKeys_log]
    simp
  · show (evaluateRuntimeKeys s.runtime_keys_ 0 { s with values_ := [] }).values_ = _
    rw [evaluateRuntimeKeys_values]
    simp

/-- Once the keys are ready, `DInit_keys` does nothing. -/
theorem DInit_keys_ready (s : IndexScanExecutor) (hr : s.key_ready = true) :
    DInit_keys s = s := by
  unfold DInit_keys
  rw [if_neg (by simp [hr])]

/-- Re-initialisation with the keys ready: every `DInit` succeeds and nothing
is added to the log. -/
theorem inits_ready (m : Nat) (s : IndexScanExecutor) (hc : s.children_ = 0)
    (hi : s.node.index.isNone = false)
    (hv : s.node.runtime_keys.length ≠ 0 → s.node.runtime_keys.length = s.node.values.length)
    (hr : s.key_ready = true) :
    ∃ s2, inits m s = .ok (true, s2) ∧ s2.log = s.log := by
  induction m generalizing s with
  | zero => exact ⟨s, rfl, rfl⟩
  | succ m ih =>
    obtain ⟨c1, _, _, c4, _, _, _, _, _, _, _, c12, _, _, c15⟩ :=
      DInit_columns_frame (DInit_keys (DInit_grab s))
    have hk : DInit_keys (DInit_grab s) = DInit_grab s := DInit_keys_ready _ hr
    rw [hk] at c1 c4 c12 c15
    obtain ⟨s2, h2, hlog⟩ := ih (DInit_columns (DInit_keys (DInit_grab s)))
      (by rw [hk, c4]; exact hc) (by rw [hk, c1]; exact hi) (by rw [hk, c1]; exact hv)
      (by rw [hk, c12]; exact hr)
    refine ⟨s2, ?_, ?_⟩
    · rw [inits, DInit_success s hc hi hv]
      exact h2
    · rw [hlog, hk, c15]
      rfl

/-- Calls of `DInit` one after the other: on an executor whose keys
are not ready yet and whose plan has k >= 1 runtime keys and k values, the
first `DInit` succeeds and evaluates the runtime keys 0, .., k-1 once each, in
order, each against no tuple; any run of m >= 1 calls of `DInit` succeeds and
its log holds the same runtime key evaluations as the log after the first
call, so a re-initialisation evaluates nothing. -/
theorem inits_runtime_keys_once (s : IndexScanExecutor) (m : Nat) (hm : 1 ≤ m)
    (hr : s.key_ready = false) (hc : s.children_ = 0) (hi : s.node.index.isNone = false)
    (hk : 1 ≤ s.node.runtime_keys.length)
    (hv : s.node.runtime_keys.length = s.node.values.length) :
    ∃ s1 s2, DInit true s = .ok (true, s1) ∧ inits m s = .ok (true, s2) ∧
      s1.log = s.log ++ (List.range s.node.runtime_keys.length).map
        (fun i => Event.evaluateRuntimeKey i none) ∧
      s2.log = s1.log ∧
      runtimeKeyEvals s2.log = runtimeKeyEvals s.log ++
        (List.range s.node.runtime_keys.length).map (fun i => Event.evaluateRuntimeKey i none) := by
  have hv2 : s.node.runtime_keys.length ≠ 0 → s.node.runtime_keys.length = s.node.values.length :=
    fun _ => hv
  have hinit := DInit_success s hc hi hv2
  obtain ⟨l1, _, l3⟩ := DInit_keys_first (DInit_grab s) (by show s.node.runtime_keys.length ≠ 0; omega) hr
  obtain ⟨c1, _, _, c4, _, _, _, _, _, _, _, c12, _, _, c15⟩ :=
    DInit_columns_frame (DInit_keys (DInit_grab s))
  obtain ⟨k1, _, _, k4, _⟩ := DInit_keys_frame (DInit_grab s)
  have hlog1 : (DInit_columns (DInit_keys (DInit_grab s))).log
      = s.log ++ (List.range s.node.runtime_keys.length).map
          (fun i => Event.evaluateRuntimeKey i none) := by
    rw [c15, l1]; rfl
  obtain ⟨m1, rfl⟩ : ∃ m1, m = m1 + 1 := ⟨m - 1, by omega⟩
  obtain ⟨s2, h2, hlog2⟩ := inits_ready m1 (DInit_columns (DInit_keys (DInit_grab s)))
    (by rw [c4, k4]; exact hc) (by rw [c1, k1]; exact hi) (by rw [c1, k1]; exact hv2)
    (by rw [c12, l3])
  refine ⟨_, s2, hinit, ?_, hlog1, hlog2, ?_⟩
  · rw [inits, hinit]
    exact h2
  · rw [hlog2, hlog1]
    simp only [runtimeKeyEvals, List.filter_append]
    congr 1
    rw [List.filter_eq_self]
    intro e he
    obtain ⟨i, _, rfl⟩ := List.mem_map.mp he
    rfl

/-- On an executor with one runtime key, two calls of `DInit` evaluate the
key once. -/
theorem inits_runtime_keys_once_witness :
    ∃ s1 s2, DInit true runtimeKeyExecutor = .ok (true, s1) ∧
      inits 2 runtimeKeyExecutor = .ok (true, s2) ∧
      s1.log = [Event.evaluateRuntimeKey 0 none] ∧
      s2.log = s1.log ∧
      runtimeKeyEvals s2.log = [Event.evaluateRuntimeKey 0 none] :=
  inits_runtime_keys_once runtimeKeyExecutor 2 (by decide) rfl rfl rfl (by decide) rfl

/-- C9 (code): on `runtimeKeyExecutor`, whose runtime key evaluates to 7 and
whose literal value list is the placeholder 0, the first `DInit` leaves the
evaluated key 7 in `values_`, the second `DInit` leaves the placeholder 0 there
(line 64 overwrites `values_` and the guard `key_ready` skips the evaluation),
and the probe of the next pull passes 0 to `Index::Scan`. -/
theorem inits_runtime_key_values_lost :
    (inits 1 runtimeKeyExecutor).map (fun r => r.2.values_) = .ok [Value.integer 7] ∧
    (inits 2 runtimeKeyExecutor).map (fun r => r.2.values_) = .ok [Value.integer 0] ∧
    ((inits 2 runtimeKeyExecutor).bind (fun r => DExecute exampleFactory r.2)).map
        (fun r => r.2.log)
      = .ok [Event.evaluateRuntimeKey 0 none, Event.indexScan [Value.integer 0] [0] [10]] :=
  ⟨rfl, rfl, rfl⟩

/-- With the assertions checked: when the index of the plan node is absent,
or runtime keys are configured and their number differs from the number of key
values, `DInit` does not return true: it returns false with the executor
untouched (when the base class initialisation failed) or stops at a failed
assertion; in both cases no index scan has been made. -/
theorem DInit_fails_on_malformed_plan (status : Bool) (s : IndexScanExecutor)
    (h : s.node.index = none ∨
      (s.node.runtime_keys.length ≠ 0 ∧ s.node.runtime_keys.length ≠ s.node.values.length)) :
    (∀ s1, DInit status s ≠ .ok (true, s1)) ∧
    (DInit status s = .ok (false, s) ∨ DInit status s = .error Fault.assertion) := by
  have hor : DInit status s = .ok (false, s) ∨ DInit status s = .error Fault.assertion := by
    unfold DInit
    split
    · exact Or.inl rfl
    · split
      · exact Or.inr rfl
      · split
        · exact Or.inr rfl
        · split
          · exact Or.inr rfl
          · rename_i h3 h4
            exfalso
            rcases h with h | h
            · exact h3 (by show s.node.index.isNone = true; rw [h]; rfl)
            · exact h4 h
  refine ⟨?_, hor⟩
  intro s1 h1
  rcases hor with h2 | h2 <;> rw [h2] at h1 <;> cases h1

/-- On the scan of the spec without an index, with the assertions checked. -/
theorem DInit_fails_on_malformed_plan_witness :
    (∀ s1, DInit true (exampleExecutor none) ≠ .ok (true, s1)) ∧
    (DInit true (exampleExecutor none) = .ok (false, exampleExecutor none) ∨
      DInit true (exampleExecutor none) = .error Fault.assertion) :=
  DInit_fails_on_malformed_plan true (exampleExecutor none) (Or.inl rfl)

/-! ## C4, C5, C6: a probe that returns no location -/

/-- C5 (code): after one `DInit`, when the index returns no location, the
first pull returns false and leaves `result` empty, but `done_` is still
false: `ExecIndexLookup` returns at line 149, before `done_ = true`. -/
theorem DExecute_empty_probe_not_done :
    ((DInit true (exampleExecutor (some emptyIndex))).bind
        (fun r => DExecute exampleFactory r.2)).map
        (fun r => (r.1, r.2.done_, r.2.result, probeCount r.2.log))
      = .ok (false, false, [], 1) :=
  rfl

/-- C6 (code): after one `DInit`, with an index that is empty at the first
scan and holds a row at the second, the first pull returns false and the
second pull returns true with a tile. -/
theorem pulls_not_terminal_after_empty_probe :
    ((DInit true (exampleExecutor (some lateIndex))).bind
        (fun r => pulls exampleFactory 2 r.2)).map (fun r => r.1)
      = .ok [(false, none), (true, some ⟨exampleTile.rows, [false, true]⟩)] :=
  rfl

theorem probeCount_append (l1 l2 : List Event) :
    probeCount (l1 ++ l2) = probeCount l1 + probeCount l2 := by
  simp [probeCount, List.filter_append]

theorem scanCall_isProbe (s : IndexScanExecutor) : (scanCall s).isProbe = true := by
  unfold scanCall
  split <;> rfl

theorem probeCount_scanCall (s : IndexScanExecutor) :
    probeCount (s.log ++ [scanCall s]) = probeCount s.log + 1 := by
  rw [probeCount_append]
  simp [probeCount, scanCall_isProbe]

theorem tupleLocations_emptyIndex (s : IndexScanExecutor) : tupleLocations emptyIndex s = [] := by
  unfold tupleLocations
  split <;> rfl

/-- With an index that never returns a location, every pull probes the index
again, returns false and leaves `done_` unset. -/
theorem pulls_emptyIndex (F : LogicalTileFactory) (N : Nat) (s : IndexScanExecutor)
    (hd : s.done_ = false) (hi : s.index_ = some emptyIndex) :
    ∃ s2, pulls F N s = .ok (List.replicate N (false, none), s2) ∧
      probeCount s2.log = probeCount s.log + N ∧ s2.done_ = false := by
  induction N generalizing s with
  | zero => exact ⟨s, rfl, rfl, hd⟩
  | succ N ih =>
    have hex : DExecute F s = .ok (false, { s with log := s.log ++ [scanCall s] }) := by
      simp [DExecute, DExecute_lookup, ExecIndexLookup, hd, hi, tupleLocations_emptyIndex]
    obtain ⟨s2, h2, hc2, hd2⟩ := ih { s with log := s.log ++ [scanCall s] } hd hi
    refine ⟨s2, ?_, ?_, hd2⟩
    · rw [pulls, hex]
      simp only [h2]
      simp [emitted, List.replicate_succ]
    · rw [hc2]
      show probeCount (s.log ++ [scanCall s]) + N = _
      rw [probeCount_scanCall]
      omega

/-- C4 (code): after one `DInit`, with an index whose scan returns no
location, N pulls perform N index probes, not one: the return at line 149 of
`ExecIndexLookup` leaves `done_` unset, so each pull probes again. -/
theorem pulls_probe_again_on_empty_index (N : Nat) :
    ((DInit true (exampleExecutor (some emptyIndex))).bind
        (fun r => pulls exampleFactory N r.2)).map (fun r => probeCount r.2.log)
      = .ok N := by
  have hinit : DInit true (exampleExecutor (some emptyIndex))
      = .ok (true, exampleInitialized (some emptyIndex)) := rfl
  obtain ⟨s2, h2, hc, _⟩ :=
    pulls_emptyIndex exampleFactory N (exampleInitialized (some emptyIndex)) rfl rfl
  rw [hinit]
  show (pulls exampleFactory N (exampleInitialized (some emptyIndex))).map
    (fun r => probeCount r.2.log) = .ok N
  rw [h2]
  show Except.ok (probeCount s2.log) = Except.ok N
  rw [hc]
  have : probeCount (exampleInitialized (some emptyIndex)).log = 0 := rfl
  rw [this, Nat.zero_add]

/-- Exhaustion is terminal once the probe is memoized: on an executor with
`done_` set, after a pull that returned false every later pull returns false. -/
theorem pulls_terminal_when_done (F : LogicalTileFactory) (s s1 : IndexScanExecutor)
    (hd : s.done_ = true) (h : DExecute F s = .ok (false, s1)) (m : Nat) :
    ∃ s2, pulls F m s1 = .ok (List.replicate m (false, none), s2) := by
  rw [DExecute_done F s hd] at h
  simp only [Except.ok.injEq] at h
  obtain ⟨_, _, h3, h4, h5⟩ :=
    DExecute_while_pending (s.result.length - s.result_itr) s (Nat.le_refl _)
  rw [h] at h3 h4 h5
  have hp : pending s1 = [] := by
    cases hps : pending s with
    | nil => exact (h4 hps).2
    | cons t ts => exact absurd (h5 t ts hps).1 (by simp)
  obtain ⟨s2, h2, _⟩ := pulls_done F m s1 (by rw [h3, hd])
  refine ⟨s2, ?_⟩
  rw [h2, hp]
  simp [expectedPulls]

/-! ## The bound on the iterations of the loop is never reached -/

/-- The loop of `DExecute` does not depend on the bound, once the bound is at
least `result.size() - result_itr`: the bound `DExecute` passes is enough. -/
theorem DExecute_while_eq (n : Nat) (s : IndexScanExecutor)
    (hn : s.result.length - s.result_itr ≤ n) :
    DExecute_while n s = DExecute_while (s.result.length - s.result_itr) s := by
  induction n generalizing s with
  | zero =>
    have h0 : s.result.length - s.result_itr = 0 := by omega
    rw [h0]
  | succ n ih =>
    by_cases hlt : s.result_itr < s.result.length
    · obtain ⟨_, _, fi, _, _, fl⟩ := applyPredicate_frame s
      obtain ⟨k, hk⟩ : ∃ k, s.result.length - s.result_itr = k + 1 :=
        ⟨s.result.length - s.result_itr - 1, by omega⟩
      rw [hk, DExecute_while, DExecute_while]
      simp only [hlt, if_true]
      cases (applyPredicate s).result[(applyPredicate s).result_itr]? with
      | none => rfl
      | some tile =>
        simp only
        by_cases hc : tile.GetTupleCount = 0
        · simp only [hc, if_true]
          have hk2 : ({ applyPredicate s with
              result_itr := (applyPredicate s).result_itr + 1 } : IndexScanExecutor).result.length
              - ({ applyPredicate s with
              result_itr := (applyPredicate s).result_itr + 1 } : IndexScanExecutor).result_itr
              = k := by
            show (applyPredicate s).result.length - ((applyPredicate s).result_itr + 1) = k
            rw [fl, fi]; omega
          rw [ih _ (by rw [hk2]; omega), hk2]
        · simp only [hc, if_false]
    · have h0 : s.result.length - s.result_itr = 0 := by omega
      rw [h0, DExecute_while, DExecute_while]
      simp only [hlt, if_false]

/-! ## Index probes in the log -/

theorem filterTuple_probeCount (p : AbstractExpression) (ctx : ExecutorContext) (k : Nat)
    (acc : LogicalTile × List Event) (a : Nat) :
    probeCount (filterTuple p ctx k acc a).2 = probeCount acc.2 := by
  unfold filterTuple
  split
  · split <;> simp [probeCount_append, probeCount, Event.isProbe]
  · rfl

theorem filterTile_probeCount (p : AbstractExpression) (ctx : ExecutorContext) (k : Nat)
    (t : LogicalTile) (log : List Event) :
    probeCount (filterTile p ctx k t log).2 = probeCount log := by
  unfold filterTile
  generalize List.range t.visible_rows_.length = ids
  have key : ∀ (ids : List Nat) (acc : LogicalTile × List Event),
      probeCount (ids.foldl (filterTuple p ctx k) acc).2 = probeCount acc.2 := by
    intro ids
    induction ids with
    | nil => intro acc; rfl
    | cons a ids ih => intro acc; rw [List.foldl_cons, ih, filterTuple_probeCount]
  exact key ids (t, log)

theorem applyPredicate_probeCount (s : IndexScanExecutor) :
    probeCount (applyPredicate s).log = probeCount s.log := by
  unfold applyPredicate
  split
  · exact filterTile_probeCount _ _ _ _ _
  · rfl

/-- The loop of `DExecute` makes no index probe. -/
theorem DExecute_while_probeCount (n : Nat) (s : IndexScanExecutor) :
    probeCount (DExecute_while n s).2.log = probeCount s.log := by
  induction n generalizing s with
  | zero => rfl
  | succ n ih =>
    rw [DExecute_while]
    by_cases hlt : s.result_itr < s.result.length
    · simp only [hlt, if_true]
      cases (applyPredicate s).result[(applyPredicate s).result_itr]? with
      | none => exact applyPredicate_probeCount s
      | some tile =>
        simp only
        by_cases hc : tile.GetTupleCount = 0
        · simp only [hc, if_true]
          rw [ih]
          exact applyPredicate_probeCount s
        · simp only [hc, if_false]
          exact applyPredicate_probeCount s
    · simp only [hlt, if_false]

/-- On a probed executor, pulls make no index probe. -/
theorem pulls_done_probeCount (F : LogicalTileFactory) (m : Nat) (s s2 : IndexScanExecutor)
    (rs : List (Bool × Option LogicalTile)) (hd : s.done_ = true)
    (h : pulls F m s = .ok (rs, s2)) : probeCount s2.log = probeCount s.log := by
  induction m generalizing s rs with
  | zero =>
    simp only [pulls, Except.ok.injEq, Prod.mk.injEq] at h
    rw [← h.2]
  | succ m ih =>
    rw [pulls, DExecute_done F s hd] at h
    simp only at h
    obtain ⟨_, _, h3, _, _⟩ :=
      DExecute_while_pending (s.result.length - s.result_itr) s (Nat.le_refl _)
    cases hrec : pulls F m (DExecute_while (s.result.length - s.result_itr) s).2 with
    | error f => rw [hrec] at h; cases h
    | ok x =>
      obtain ⟨rs1, s3⟩ := x
      rw [hrec] at h
      simp only [Except.ok.injEq, Prod.mk.injEq] at h
      obtain ⟨_, rfl⟩ := h
      rw [ih _ rs1 (by rw [h3, hd]) hrec, DExecute_while_probeCount]

/-- The probe is memoized when it returns a location: after `DInit`, when the
first probe returns at least one location, any run of N >= 1 pulls makes
exactly one index probe. -/
theorem pulls_probe_once (F : LogicalTileFactory) (status : Bool) (s0 s s2 : IndexScanExecutor)
    (index : Index) (N : Nat) (rs : List (Bool × Option LogicalTile)) (hN : 1 ≤ N)
    (hinit : DInit status s0 = .ok (true, s)) (hi : s.index_ = some index)
    (hl : tupleLocations index s ≠ []) (h : pulls F N s = .ok (rs, s2)) :
    probeCount s2.log = probeCount s.log + 1 := by
  obtain ⟨hd, _⟩ := DInit_ok status s0 s hinit
  obtain ⟨n, rfl⟩ : ∃ n, N = n + 1 := ⟨N - 1, by omega⟩
  obtain ⟨s1, hex, hd1, _, _, _, _, hlog⟩ := DExecute_first F s index hd hi hl
  have hp : pulls F (n + 1) s = pulls F (n + 1) s1 := by rw [pulls, pulls, hex]
  rw [hp] at h
  rw [pulls_done_probeCount F (n + 1) s1 s2 rs hd1 h, hlog, probeCount_scanCall]

/-! ## C11: an empty result is exhaustion -/

theorem getTupleCount_eq_zero (t : LogicalTile) (h : ∀ i, t.IsVisible i = false) :
    t.GetTupleCount = 0 := by
  unfold LogicalTile.GetTupleCount
  rw [List.count_eq_zero]
  intro hmem
  obtain ⟨i, hi, hget⟩ := List.getElem_of_mem hmem
  have := h i
  unfold LogicalTile.IsVisible at this
  rw [List.getD_eq_getElem _ _ hi, hget] at this
  cases this

theorem hideFalse_count_zero (p : AbstractExpression) (ctx : ExecutorContext) (t : LogicalTile)
    (h : ∀ i, t.IsVisible i = true → (p.Evaluate (some ⟨t.rows, i⟩) none ctx).IsFalse = true) :
    (hideFalse p ctx t).GetTupleCount = 0 := by
  apply getTupleCount_eq_zero
  intro i
  rw [hideFalse_isVisible]
  cases hv : t.IsVisible i with
  | false => rfl
  | true => simp [h i hv]

theorem keptTiles_eq_nil (q : Option AbstractExpression) (ctx : ExecutorContext)
    (tiles : List LogicalTile)
    (h : ∀ t ∈ tiles, (residual q ctx t).GetTupleCount = 0) : keptTiles q ctx tiles = [] := by
  unfold keptTiles
  rw [List.filter_eq_nil_iff]
  intro u hu
  obtain ⟨t, ht, rfl⟩ := List.mem_map.mp hu
  simp [h t ht]

/-- A loop that returns false has not touched the output. -/
theorem DExecute_while_false_output (n : Nat) (s : IndexScanExecutor)
    (h : (DExecute_while n s).1 = false) : (DExecute_while n s).2.output = s.output := by
  induction n generalizing s with
  | zero => rfl
  | succ n ih =>
    obtain ⟨_, _, _, _, fo, _⟩ := applyPredicate_frame s
    rw [DExecute_while] at h ⊢
    by_cases hlt : s.result_itr < s.result.length
    · simp only [hlt, if_true] at h ⊢
      cases hg : (applyPredicate s).result[(applyPredicate s).result_itr]? with
      | none => simp only [hg]; exact fo
      | some tile =>
        simp only [hg] at h ⊢
        by_cases hc : tile.GetTupleCount = 0
        · simp only [hc, if_true] at h ⊢
          rw [ih _ h]
          exact fo
        · simp [hc] at h
    · simp only [hlt, if_false]

theorem ExecIndexLookup_probed (F : LogicalTileFactory) (s : IndexScanExecutor) (index : Index)
    (hd : s.done_ = false) (hi : s.index_ = some index) (hl : tupleLocations index s ≠ []) :
    ExecIndexLookup F s = .ok (true, probed F index s) := by
  have hlen : ¬ (tupleLocations index s).length = 0 := fun h => hl (List.length_eq_zero.mp h)
  simp [ExecIndexLookup, hd, hi, hlen, probed]

theorem ExecIndexLookup_probedEmpty (F : LogicalTileFactory) (s : IndexScanExecutor)
    (index : Index) (hd : s.done_ = false) (hi : s.index_ = some index)
    (hl : tupleLocations index s = []) :
    ExecIndexLookup F s = .ok (false, probedEmpty s) := by
  simp [ExecIndexLookup, hd, hi, hl, probedEmpty]

/-- The pull that probes successfully is the pull of the probed executor. -/
theorem DExecute_probed (F : LogicalTileFactory) (s : IndexScanExecutor) (index : Index)
    (hd : s.done_ = false) (hi : s.index_ = some index) (hl : tupleLocations index s ≠ []) :
    DExecute F s = DExecute F (probed F index s) := by
  have hlook : DExecute_lookup F s = .ok (true, probed F index s) := by
    rw [← ExecIndexLookup_probed F s index hd hi hl]
    simp [DExecute_lookup, hd]
  rw [DExecute_of_lookup F s _ hlook, DExecute_done F _ rfl]

/-- The pull whose probe returns no location. -/
theorem DExecute_probedEmpty (F : LogicalTileFactory) (s : IndexScanExecutor) (index : Index)
    (hd : s.done_ = false) (hi : s.index_ = some index) (hl : tupleLocations index s = []) :
    DExecute F s = .ok (false, probedEmpty s) := by
  have hlook : DExecute_lookup F s = .ok (false, probedEmpty s) := by
    rw [← ExecIndexLookup_probedEmpty F s index hd hi hl]
    simp [DExecute_lookup, hd]
  unfold DExecute
  rw [hlook]

/-- C11 (empty result is exhaustion, not an error): after a successful `DInit`,
when the probe of the first pull returns no location, or returns locations
whose tiles have only rows on which the residual predicate is a definite
false, the first pull returns false and leaves the output as it was; the
return value is the same in both situations. -/
theorem DExecute_empty_result (F : LogicalTileFactory) (status : Bool)
    (s0 s : IndexScanExecutor) (index : Index)
    (hinit : DInit status s0 = .ok (true, s)) (hi : s.index_ = some index)
    (h : tupleLocations index s = [] ∨
      ∃ p, s.predicate_ = some p ∧
        ∀ tile ∈ F.WrapTileGroups (tupleLocations index s) s.column_ids_
            s.executor_context_.transaction.txn_id
            s.executor_context_.transaction.last_commit_id,
          ∀ i, tile.IsVisible i = true →
            (p.Evaluate (some ⟨tile.rows, i⟩) none s.executor_context_).IsFalse = true) :
    ∃ s2, DExecute F s = .ok (false, s2) ∧ s2.output = s.output := by
  obtain ⟨hd, hitr, _⟩ := DInit_ok status s0 s hinit
  by_cases hl : tupleLocations index s = []
  · exact ⟨probedEmpty s, DExecute_probedEmpty F s index hd hi hl, rfl⟩
  · rcases h with h | ⟨p, hp, hall⟩
    · exact absurd h hl
    · have hpend : pending (probed F index s) = [] := by
        show keptTiles s.predicate_ s.executor_context_ (List.drop s.result_itr
          (F.WrapTileGroups (tupleLocations index s) s.column_ids_
            s.executor_context_.transaction.txn_id
            s.executor_context_.transaction.last_commit_id)) = []
        rw [hitr, START_OID, List.drop_zero, hp]
        apply keptTiles_eq_nil
        intro t ht
        exact hideFalse_count_zero p _ t (hall t ht)
      obtain ⟨_, _, _, h4, _⟩ := DExecute_while_pending
        ((probed F index s).result.length - (probed F index s).result_itr) (probed F index s)
        (Nat.le_refl _)
      have hb := (h4 hpend).1
      have ho := DExecute_while_false_output _ (probed F index s) hb
      refine ⟨_, ?_, ho⟩
      rw [DExecute_probed F s index hd hi hl, DExecute_done F _ rfl]
      congr 1
      exact Prod.ext hb rfl

/-- C11, on the scan of the spec over an index without a matching location. -/
theorem DExecute_empty_result_witness :
    ∃ s2, DExecute exampleFactory (exampleInitialized (some emptyIndex)) = .ok (false, s2) ∧
      s2.output = (exampleInitialized (some emptyIndex)).output :=
  DExecute_empty_result exampleFactory true (exampleExecutor (some emptyIndex))
    (exampleInitialized (some emptyIndex)) emptyIndex rfl rfl (Or.inl rfl)

/-! ## C12: the column id list -/

/-- C12 (identity column list): after a successful `DInit` on a plan node with
a table of N columns and no target column ids, `column_ids_` is
`[0, 1, .., N-1]` (length N, entry i equal to i); a non-empty list of target
column ids is taken over unchanged. -/
theorem DInit_column_ids (status : Bool) (s s1 : IndexScanExecutor)
    (h : DInit status s = .ok (true, s1)) :
    (∀ table, s.node.table = some table → s.node.column_ids = [] →
      s1.column_ids_ = List.range table.column_count ∧
      s1.column_ids_.length = table.column_count ∧
      ∀ i, i < table.column_count → s1.column_ids_[i]? = some i) ∧
    (s.node.column_ids ≠ [] → s1.column_ids_ = s.node.column_ids) := by
  obtain ⟨_, _, _, _, rfl⟩ := DInit_eq_ok status s s1 h
  obtain ⟨k1, _, _, _, _, _, _, k8, _⟩ := DInit_keys_frame (DInit_grab s)
  have hn : (DInit_keys (DInit_grab s)).node = s.node := k1
  have hc : (DInit_keys (DInit_grab s)).column_ids_ = s.node.column_ids := k8
  constructor
  · intro table ht he
    have hcol : (DInit_columns (DInit_keys (DInit_grab s))).column_ids_
        = List.range table.column_count := by
      unfold DInit_columns
      rw [hn, ht]
      simp [hc, he]
    rw [hcol]
    refine ⟨rfl, List.length_range _, ?_⟩
    intro i hi
    rw [List.getElem?_range hi]
  · intro hne
    have hcol : (DInit_columns (DInit_keys (DInit_grab s))).column_ids_ = s.node.column_ids := by
      unfold DInit_columns
      split
      · have : (DInit_keys (DInit_grab s)).column_ids_.isEmpty = false := by
          rw [hc]; cases hcs : s.node.column_ids with
          | nil => exact absurd hcs hne
          | cons a l => rfl
        simp [hc, hne]
      · exact hc
    exact hcol

/-- C12, on a scan of all columns of a table with three columns. -/
theorem DInit_column_ids_witness :
    (∀ table, allColumnsExecutor.node.table = some table →
      allColumnsExecutor.node.column_ids = [] →
      (stateAfter (DInit true allColumnsExecutor) allColumnsExecutor).column_ids_
        = List.range table.column_count ∧
      (stateAfter (DInit true allColumnsExecutor) allColumnsExecutor).column_ids_.length
        = table.column_count ∧
      ∀ i, i < table.column_count →
        (stateAfter (DInit true allColumnsExecutor) allColumnsExecutor).column_ids_[i]?
          = some i) ∧
    (allColumnsExecutor.node.column_ids ≠ [] →
      (stateAfter (DInit true allColumnsExecutor) allColumnsExecutor).column_ids_
        = allColumnsExecutor.node.column_ids) ∧
    (stateAfter (DInit true allColumnsExecutor) allColumnsExecutor).column_ids_ = [0, 1, 2] :=
  ⟨(DInit_column_ids true allColumnsExecutor
      (stateAfter (DInit true allColumnsExecutor) allColumnsExecutor) rfl).1,
   (DInit_column_ids true allColumnsExecutor
      (stateAfter (DInit true allColumnsExecutor) allColumnsExecutor) rfl).2, rfl⟩

/-! ## C14, C15: the probe -/

/-- C14 (probe dispatch): a probe that returns calls the unconditional scan
exactly when `key_column_ids_` is empty, and otherwise the conditional scan
with `values_`, `key_column_ids_`, `expr_types_` in that order; the locations
that call returned decide the return value and are the ones handed to the
factory. -/
theorem ExecIndexLookup_dispatch (F : LogicalTileFactory) (s s1 : IndexScanExecutor) (b : Bool)
    (h : ExecIndexLookup F s = .ok (b, s1)) :
    ∃ index call locs, s.index_ = some index ∧ s1.log = s.log ++ [call] ∧
      (call = Event.indexScanAll ↔ s.key_column_ids_ = []) ∧
      (s.key_column_ids_ = [] → locs = index.ScanAll (probeCount s.log)) ∧
      (s.key_column_ids_ ≠ [] →
        call = Event.indexScan s.values_ s.key_column_ids_ s.expr_types_ ∧
        locs = index.Scan (probeCount s.log) s.values_ s.key_column_ids_ s.expr_types_) ∧
      (b = true ↔ locs ≠ []) ∧
      (b = true → s1.result = F.WrapTileGroups locs s.column_ids_
        s.executor_context_.transaction.txn_id
        s.executor_context_.transaction.last_commit_id) := by
  have key : ∀ index : Index,
      (scanCall s = Event.indexScanAll ↔ s.key_column_ids_ = []) ∧
      (s.key_column_ids_ = [] → tupleLocations index s = index.ScanAll (probeCount s.log)) ∧
      (s.key_column_ids_ ≠ [] →
        scanCall s = Event.indexScan s.values_ s.key_column_ids_ s.expr_types_ ∧
        tupleLocations index s
          = index.Scan (probeCount s.log) s.values_ s.key_column_ids_ s.expr_types_) := by
    intro index
    unfold scanCall tupleLocations
    by_cases hk : s.key_column_ids_ = []
    · simp [hk]
    · have hlen : ¬ s.key_column_ids_.length = 0 := fun h0 => hk (List.length_eq_zero.mp h0)
      simp [hk, hlen]
  cases b with
  | true =>
    obtain ⟨index, hi, _, hl, _, _, _, _, hres, hlog⟩ := ExecIndexLookup_true F s s1 h
    obtain ⟨k1, k2, k3⟩ := key index
    exact ⟨index, scanCall s, tupleLocations index s, hi, hlog, k1, k2, k3,
      ⟨fun _ => hl, fun _ => rfl⟩, fun _ => hres⟩
  | false =>
    obtain ⟨index, hi, _, hl, rfl⟩ := ExecIndexLookup_false F s s1 h
    obtain ⟨k1, k2, k3⟩ := key index
    refine ⟨index, scanCall s, tupleLocations index s, hi, rfl, k1, k2, k3, ?_, ?_⟩
    · rw [hl]; simp
    · intro hb; cases hb

/-- C14, on the scan `id >= 1` of the spec: the conditional scan is called
with the value 1, the key column 0 and the comparison code 15. -/
theorem ExecIndexLookup_dispatch_witness :
    ∃ index call locs, (exampleInitialized (some exampleIndex)).index_ = some index ∧
      (exampleProbed (some exampleIndex)).log
        = (exampleInitialized (some exampleIndex)).log ++ [call] ∧
      (call = Event.indexScanAll ↔ (exampleInitialized (some exampleIndex)).key_column_ids_ = []) ∧
      ((exampleInitialized (some exampleIndex)).key_column_ids_ = [] →
        locs = index.ScanAll (probeCount (exampleInitialized (some exampleIndex)).log)) ∧
      ((exampleInitialized (some exampleIndex)).key_column_ids_ ≠ [] →
        call = Event.indexScan (exampleInitialized (some exampleIndex)).values_
          (exampleInitialized (some exampleIndex)).key_column_ids_
          (exampleInitialized (some exampleIndex)).expr_types_ ∧
        locs = index.Scan (probeCount (exampleInitialized (some exampleIndex)).log)
          (exampleInitialized (some exampleIndex)).values_
          (exampleInitialized (some exampleIndex)).key_column_ids_
          (exampleInitialized (some exampleIndex)).expr_types_) ∧
      (true = true ↔ locs ≠ []) ∧
      (true = true → (exampleProbed (some exampleIndex)).result
        = exampleFactory.WrapTileGroups locs (exampleInitialized (some exampleIndex)).column_ids_
            (exampleInitialized (some exampleIndex)).executor_context_.transaction.txn_id
            (exampleInitialized (some exampleIndex)).executor_context_.transaction.last_commit_id) :=
  ExecIndexLookup_dispatch exampleFactory (exampleInitialized (some exampleIndex))
    (exampleProbed (some exampleIndex)) true rfl

/-- C15 (snapshot passing): when the probe returns at least one location,
`ExecIndexLookup` returns true, `result` is what the factory makes of the
returned locations, the executor's column ids and the transaction id and
last commit id of the active transaction, and `done_` is set. -/
theorem ExecIndexLookup_snapshot (F : LogicalTileFactory) (s : IndexScanExecutor)
    (index : Index) (hd : s.done_ = false) (hi : s.index_ = some index)
    (hl : tupleLocations index s ≠ []) :
    ∃ s1, ExecIndexLookup F s = .ok (true, s1) ∧
      s1.result = F.WrapTileGroups (tupleLocations index s) s.column_ids_
        s.executor_context_.transaction.txn_id
        s.executor_context_.transaction.last_commit_id ∧
      s1.done_ = true :=
  ⟨probed F index s, ExecIndexLookup_probed F s index hd hi hl, rfl, rfl⟩

/-- C15, on the scan of the spec under the snapshot `{1, 5}`. -/
theorem ExecIndexLookup_snapshot_witness :
    ∃ s1, ExecIndexLookup exampleFactory (exampleInitialized (some exampleIndex))
        = .ok (true, s1) ∧
      s1.result = exampleFactory.WrapTileGroups [⟨0, 0⟩, ⟨0, 1⟩] [0] 1 5 ∧
      s1.done_ = true :=
  ExecIndexLookup_snapshot exampleFactory (exampleInitialized (some exampleIndex)) exampleIndex
    rfl rfl (by decide)

/-! ## C17: the `done_` flag -/

theorem pulls_done_flag (F : LogicalTileFactory) (m : Nat) (s s2 : IndexScanExecutor)
    (rs : List (Bool × Option LogicalTile)) (h : pulls F m s = .ok (rs, s2))
    (hd : s.done_ = true) : s2.done_ = true := by
  obtain ⟨s3, h3, hd3⟩ := pulls_done F m s hd
  rw [h3] at h
  simp only [Except.ok.injEq, Prod.mk.injEq] at h
  rw [← h.2]
  exact hd3

/-- C17 (code): `DInit` sets `done_` back. On the example of the spec, `done_`
is false after `DInit`, true after the first pull, false again after a second
`DInit`, and true again after the next pull. -/
theorem DInit_resets_done :
    (exampleInitialized (some exampleIndex)).done_ = false ∧
    DExecute exampleFactory (exampleInitialized (some exampleIndex))
      = .ok (true, examplePulled (some exampleIndex)) ∧
    (examplePulled (some exampleIndex)).done_ = true ∧
    (DInit true (examplePulled (some exampleIndex))).map (fun r => (r.1, r.2.done_))
      = .ok (true, false) ∧
    ((DInit true (examplePulled (some exampleIndex))).bind
        (fun r => DExecute exampleFactory r.2)).map (fun r => (r.1, r.2.done_))
      = .ok (true, true) :=
  ⟨rfl, rfl, rfl, rfl, rfl⟩

/-- C17, as the code has it: a successful `DInit` leaves `done_` false, and
between two calls of `DInit` no pull sets `done_` back from true to false, so
that in a run of pulls `done_` changes from false to true at most once. -/
theorem done_flag_between_inits (F : LogicalTileFactory) :
    (∀ (status : Bool) (s s1 : IndexScanExecutor),
      DInit status s = .ok (true, s1) → s1.done_ = false) ∧
    (∀ (m : Nat) (s s2 : IndexScanExecutor) (rs : List (Bool × Option LogicalTile)),
      pulls F m s = .ok (rs, s2) → s.done_ = true → s2.done_ = true) :=
  ⟨fun status s s1 h => (DInit_ok status s s1 h).1,
   fun m s s2 rs h hd => pulls_done_flag F m s s2 rs h hd⟩

/-- C17, on the example of the spec: `done_` is false after `DInit` and stays
true over a pull of the probed executor. -/
theorem done_flag_between_inits_witness :
    (exampleInitialized (some exampleIndex)).done_ = false ∧
    (examplePulled (some exampleIndex)).done_ = true :=
  ⟨(done_flag_between_inits exampleFactory).1 true (exampleExecutor (some exampleIndex))
      (exampleInitialized (some exampleIndex)) rfl,
   (done_flag_between_inits exampleFactory).2 1 (exampleProbed (some exampleIndex))
      (examplePulled (some exampleIndex)) [(true, some ⟨exampleTile.rows, [false, true]⟩)]
      rfl rfl⟩

/-! ## C19: termination and the range of the cursor -/

/-- Under the loop condition the tile under the cursor exists, before and
after the predicate is applied: the accesses `result[result_itr]` of the loop
body are within bounds. -/
theorem loop_access_in_bounds (t : IndexScanExecutor) (h : t.result_itr < t.result.length) :
    (t.result[t.result_itr]?).isSome = true ∧
    ((applyPredicate t).result[(applyPredicate t).result_itr]?).isSome = true := by
  obtain ⟨_, _, fi, _, _, fl⟩ := applyPredicate_frame t
  constructor
  · rw [List.getElem?_eq_getElem h]; rfl
  · rw [List.getElem?_eq_getElem (by rw [fi, fl]; exact h)]; rfl

/-- The cursor after the loop is the cursor before plus the number of
iterations. -/
theorem DExecute_while_cursor (n : Nat) (s : IndexScanExecutor) :
    (DExecute_while n s).2.result_itr = s.result_itr + DExecute_while_iterations n s := by
  induction n generalizing s with
  | zero => rfl
  | succ n ih =>
    obtain ⟨_, _, fi, _, _, fl⟩ := applyPredicate_frame s
    rw [DExecute_while, DExecute_while_iterations]
    by_cases hlt : s.result_itr < s.result.length
    · simp only [hlt, if_true]
      have hb := (loop_access_in_bounds s hlt).2
      cases hg : (applyPredicate s).result[(applyPredicate s).result_itr]? with
      | none => rw [hg] at hb; cases hb
      | some tile =>
        simp only
        by_cases hc : tile.GetTupleCount = 0
        · simp only [hc, if_true]
          rw [ih]
          show (applyPredicate s).result_itr + 1 + _ = _
          rw [fi]; omega
        · simp only [hc, if_false]
          rw [fi]
    · simp only [hlt, if_false, Nat.add_zero]

/-- A loop that returns false has left by its condition: the cursor is not
below the size of `result`. -/
theorem DExecute_while_exit (n : Nat) (s : IndexScanExecutor)
    (hn : s.result.length - s.result_itr ≤ n) (h : (DExecute_while n s).1 = false) :
    (DExecute_while n s).2.result.length ≤ (DExecute_while n s).2.result_itr := by
  induction n generalizing s with
  | zero =>
    show s.result.length ≤ s.result_itr
    omega
  | succ n ih =>
    obtain ⟨_, _, fi, _, _, fl⟩ := applyPredicate_frame s
    rw [DExecute_while] at h ⊢
    by_cases hlt : s.result_itr < s.result.length
    · simp only [hlt, if_true] at h ⊢
      have hb := (loop_access_in_bounds s hlt).2
      cases hg : (applyPredicate s).result[(applyPredicate s).result_itr]? with
      | none => rw [hg] at hb; cases hb
      | some tile =>
        simp only [hg] at h ⊢
        by_cases hc : tile.GetTupleCount = 0
        · simp only [hc, if_true] at h ⊢
          apply ih _ _ h
          show (applyPredicate s).result.length - ((applyPredicate s).result_itr + 1) ≤ n
          rw [fl, fi]; omega
        · simp [hc] at h
    · simp only [hlt, if_false]
      omega

/-- C19 (termination and range of the cursor): let `s1` be the state in which
a pull enters its loop, with the cursor not beyond the size of `result`. The
pull returns; its loop makes at most `result.size() - result_itr` iterations;
the cursor afterwards is the cursor at loop entry plus the number of
iterations, so it never decreases and grows by one per examined tile; it is
still not beyond the size of `result`, which is unchanged; a loop that
returns false stopped because the cursor reached the size of `result`; the
outcome is the same under every larger bound on the iterations; and under the
loop condition every access `result[result_itr]` is within bounds. -/
theorem DExecute_terminates_in_range (F : LogicalTileFactory) (s s1 : IndexScanExecutor)
    (hentry : DExecute_lookup F s = .ok (true, s1))
    (hle : s1.result_itr ≤ s1.result.length) :
    ∃ b s2, DExecute F s = .ok (b, s2) ∧
      DExecute_while_iterations (s1.result.length - s1.result_itr) s1
        ≤ s1.result.length - s1.result_itr ∧
      s2.result_itr
        = s1.result_itr + DExecute_while_iterations (s1.result.length - s1.result_itr) s1 ∧
      s2.result.length = s1.result.length ∧
      s2.result_itr ≤ s2.result.length ∧
      (b = false → s2.result_itr = s2.result.length) ∧
      (∀ n, s1.result.length - s1.result_itr ≤ n → DExecute_while n s1 = (b, s2)) ∧
      (∀ t : IndexScanExecutor, t.result_itr < t.result.length →
        (t.result[t.result_itr]?).isSome = true ∧
        ((applyPredicate t).result[(applyPredicate t).result_itr]?).isSome = true) := by
  obtain ⟨_, h2, h3, _⟩ :=
    DExecute_while_result (s1.result.length - s1.result_itr) s1 (Nat.le_refl _)
  have hc := DExecute_while_cursor (s1.result.length - s1.result_itr) s1
  have hmax : max s1.result_itr s1.result.length = s1.result.length := Nat.max_eq_right hle
  rw [hmax] at h2
  refine ⟨(DExecute_while (s1.result.length - s1.result_itr) s1).1,
    (DExecute_while (s1.result.length - s1.result_itr) s1).2,
    DExecute_of_lookup F s s1 hentry, by omega, hc, h3, by omega, ?_, ?_, loop_access_in_bounds⟩
  · intro hb
    have := DExecute_while_exit _ s1 (Nat.le_refl _) hb
    omega
  · intro n hn
    exact DExecute_while_eq n s1 hn

/-- C19, on the example of the spec: the first pull examines one tile and
moves the cursor from 0 to 1. -/
theorem DExecute_terminates_in_range_witness :
    ∃ b s2, DExecute exampleFactory (exampleInitialized (some exampleIndex)) = .ok (b, s2) ∧
      DExecute_while_iterations 1 (exampleProbed (some exampleIndex)) ≤ 1 ∧
      s2.result_itr = 0 + DExecute_while_iterations 1 (exampleProbed (some exampleIndex)) ∧
      s2.result.length = 1 ∧
      s2.result_itr ≤ s2.result.length ∧
      (b = false → s2.result_itr = s2.result.length) ∧
      (∀ n, 1 ≤ n → DExecute_while n (exampleProbed (some exampleIndex)) = (b, s2)) ∧
      (∀ t : IndexScanExecutor, t.result_itr < t.result.length →
        (t.result[t.result_itr]?).isSome = true ∧
        ((applyPredicate t).result[(applyPredicate t).result_itr]?).isSome = true) :=
  DExecute_terminates_in_range exampleFactory (exampleInitialized (some exampleIndex))
    (exampleProbed (some exampleIndex)) rfl (by decide)

/-! ## Runs of pulls on an executor that has not probed successfully yet -/

theorem probedEmpty_iterate_frame (j : Nat) (s : IndexScanExecutor) :
    (probedEmpty^[j] s).done_ = s.done_ ∧ (probedEmpty^[j] s).index_ = s.index_ ∧
    (probedEmpty^[j] s).predicate_ = s.predicate_ ∧
    (probedEmpty^[j] s).executor_context_ = s.executor_context_ ∧
    (probedEmpty^[j] s).result_itr = s.result_itr ∧ (probedEmpty^[j] s).result = s.result ∧
    (probedEmpty^[j] s).output = s.output ∧ (probedEmpty^[j] s).column_ids_ = s.column_ids_ ∧
    (probedEmpty^[j] s).key_column_ids_ = s.key_column_ids_ ∧
    (probedEmpty^[j] s).values_ = s.values_ ∧ (probedEmpty^[j] s).expr_types_ = s.expr_types_ := by
  induction j generalizing s with
  | zero => exact ⟨rfl, rfl, rfl, rfl, rfl, rfl, rfl, rfl, rfl, rfl, rfl⟩
  | succ j ih =>
    rw [Function.iterate_succ_apply]
    exact ih (probedEmpty s)

/-- A run of pulls on an executor that has not probed successfully: either
every probe returned no location and every pull returned false, or after `j`
such pulls a probe returned locations and the rest of the run is a run of the
probed executor. -/
theorem pulls_not_done (F : LogicalTileFactory) (m : Nat) (s s2 : IndexScanExecutor)
    (rs : List (Bool × Option LogicalTile)) (hd : s.done_ = false)
    (h : pulls F m s = .ok (rs, s2)) :
    (rs = List.replicate m (false, none) ∧ s2 = probedEmpty^[m] s) ∨
    (∃ j index rs1, j < m ∧ s.index_ = some index ∧
      tupleLocations index (probedEmpty^[j] s) ≠ [] ∧
      pulls F (m - j) (probed F index (probedEmpty^[j] s)) = .ok (rs1, s2) ∧
      rs = List.replicate j (false, none) ++ rs1) := by
  induction m generalizing s rs with
  | zero =>
    simp only [pulls, Except.ok.injEq, Prod.mk.injEq] at h
    exact Or.inl ⟨h.1.symm, h.2.symm⟩
  | succ m ih =>
    cases hi : s.index_ with
    | none =>
      have : DExecute F s = .error Fault.nullPointer := by
        simp [DExecute, DExecute_lookup, ExecIndexLookup, hd, hi]
      rw [pulls, this] at h
      cases h
    | some index =>
      by_cases hl : tupleLocations index s = []
      · rw [pulls, DExecute_probedEmpty F s index hd hi hl] at h
        simp only at h
        cases hrec : pulls F m (probedEmpty s) with
        | error f => rw [hrec] at h; cases h
        | ok x =>
          obtain ⟨rs1, s3⟩ := x
          rw [hrec] at h
          simp only [Except.ok.injEq, Prod.mk.injEq] at h
          obtain ⟨hrs, rfl⟩ := h
          have hemit : emitted (false, probedEmpty s) = none := rfl
          rw [hemit] at hrs
          rcases ih (probedEmpty s) rs1 hd hrec with ⟨h1, h2⟩ | ⟨j, index2, rs2, hj, hi2, hl2, hp, hrs2⟩
          · left
            refine ⟨?_, ?_⟩
            · rw [← hrs, h1, List.replicate_succ]
            · rw [h2, Function.iterate_succ_apply]
          · right
            have hi3 : s.index_ = some index2 := hi2
            refine ⟨j + 1, index2, rs2, by omega, hi.symm.trans hi3, ?_, ?_, ?_⟩
            · rw [Function.iterate_succ_apply]; exact hl2
            · rw [Function.iterate_succ_apply]
              have : m + 1 - (j + 1) = m - j := by omega
              rw [this]; exact hp
            · rw [← hrs, hrs2, List.replicate_succ, List.cons_append]
      · right
        refine ⟨0, index, rs, by omega, rfl, hl, ?_, by simp⟩
        have hp : pulls F (m + 1) s = pulls F (m + 1) (probed F index s) := by
          rw [pulls, pulls, DExecute_probed F s index hd hi hl]
        rw [← h, hp]
        rfl

theorem mem_keptTiles_drop (q : Option AbstractExpression) (ctx : ExecutorContext)
    (tiles : List LogicalTile) (k : Nat) (t : LogicalTile)
    (h : t ∈ keptTiles q ctx (tiles.drop k)) : t ∈ keptTiles q ctx tiles := by
  unfold keptTiles at h ⊢
  rw [List.mem_filter] at h ⊢
  refine ⟨?_, h.2⟩
  obtain ⟨u, hu, rfl⟩ := List.mem_map.mp h.1
  exact List.mem_map.mpr ⟨u, List.mem_of_mem_drop hu, rfl⟩

theorem mem_expectedPulls (kept : List LogicalTile) (m : Nat) (t : LogicalTile)
    (h : (true, some t) ∈ expectedPulls kept m) : t ∈ kept := by
  unfold expectedPulls at h
  rw [List.mem_append] at h
  rcases h with h | h
  · obtain ⟨u, hu, he⟩ := List.mem_map.mp h
    simp only [Prod.mk.injEq, Option.some.injEq, true_and] at he
    rw [← he]
    exact List.mem_of_mem_take hu
  · have := List.eq_of_mem_replicate h
    simp at this

/-! ## C18: no stale tiles -/

/-- C18 (no stale tiles after re-initialisation): a successful `DInit` resets
the cursor and `done_` and keeps the tiles of `result`; all the same, every
tile emitted by a true-returning pull of a run after that `DInit` is a kept
tile of the result of a probe made in that run: the probe that, after `j`
probes without location, returned locations. A run in which every probe
returned no location emits nothing. -/
theorem pulls_no_stale_tile (F : LogicalTileFactory) (status : Bool)
    (s0 s s2 : IndexScanExecutor) (m : Nat) (rs : List (Bool × Option LogicalTile))
    (hinit : DInit status s0 = .ok (true, s)) (h : pulls F m s = .ok (rs, s2)) :
    s.result = s0.result ∧ s.result_itr = START_OID ∧ s.done_ = false ∧
    ∀ t, (true, some t) ∈ rs →
      ∃ j index, j < m ∧ s.index_ = some index ∧
        tupleLocations index (probedEmpty^[j] s) ≠ [] ∧
        t ∈ keptTiles s.predicate_ s.executor_context_
          (F.WrapTileGroups (tupleLocations index (probedEmpty^[j] s)) s.column_ids_
            s.executor_context_.transaction.txn_id
            s.executor_context_.transaction.last_commit_id) := by
  obtain ⟨hd, hitr, _, _, _, _, _, _, hres, _⟩ := DInit_ok status s0 s hinit
  refine ⟨hres, hitr, hd, ?_⟩
  intro t ht
  rcases pulls_not_done F m s s2 rs hd h with ⟨h1, _⟩ | ⟨j, index, rs1, hj, hi, hl, hp, hrs⟩
  · rw [h1] at ht
    have := List.eq_of_mem_replicate ht
    simp at this
  · obtain ⟨_, _, f3, f4, _, _, _, f8, _⟩ := probedEmpty_iterate_frame j s
    refine ⟨j, index, hj, hi, hl, ?_⟩
    obtain ⟨s3, h3, _⟩ := pulls_done F (m - j) (probed F index (probedEmpty^[j] s)) rfl
    rw [h3] at hp
    simp only [Except.ok.injEq, Prod.mk.injEq] at hp
    rw [hrs, ← hp.1, List.mem_append] at ht
    rcases ht with ht | ht
    · have := List.eq_of_mem_replicate ht
      simp at this
    · have hmem := mem_expectedPulls _ _ _ ht
      have hmem2 := mem_keptTiles_drop _ _ _ _ _ hmem
      have e : (probed F index (probedEmpty^[j] s)).result
          = F.WrapTileGroups (tupleLocations index (probedEmpty^[j] s)) s.column_ids_
            s.executor_context_.transaction.txn_id
            s.executor_context_.transaction.last_commit_id := by
        show F.WrapTileGroups _ (probedEmpty^[j] s).column_ids_
          (probedEmpty^[j] s).executor_context_.transaction.txn_id
          (probedEmpty^[j] s).executor_context_.transaction.last_commit_id = _
        rw [f8, f4]
      rw [← e, ← f3, ← f4]
      exact hmem2

/-- C18, on the example of the spec re-initialised after its first pull: the
tile of the first probe is still in `result` after the second `DInit`, and the
tile the next pull emits is a kept tile of the probe of that pull. -/
theorem pulls_no_stale_tile_witness :
    (exampleReinitialized (some exampleIndex)).result
      = (examplePulled (some exampleIndex)).result ∧
    (exampleReinitialized (some exampleIndex)).result_itr = START_OID ∧
    (exampleReinitialized (some exampleIndex)).done_ = false ∧
    ∀ t, (true, some t) ∈ [(true, some (⟨exampleTile.rows, [false, true]⟩ : LogicalTile))] →
      ∃ j index, j < 1 ∧ (exampleReinitialized (some exampleIndex)).index_ = some index ∧
        tupleLocations index (probedEmpty^[j] (exampleReinitialized (some exampleIndex))) ≠ [] ∧
        t ∈ keptTiles (exampleReinitialized (some exampleIndex)).predicate_
          (exampleReinitialized (some exampleIndex)).executor_context_
          (exampleFactory.WrapTileGroups
            (tupleLocations index (probedEmpty^[j] (exampleReinitialized (some exampleIndex))))
            (exampleReinitialized (some exampleIndex)).column_ids_
            (exampleReinitialized (some exampleIndex)).executor_context_.transaction.txn_id
            (exampleReinitialized (some exampleIndex)).executor_context_.transaction.last_commit_id) :=
  pulls_no_stale_tile exampleFactory true (examplePulled (some exampleIndex))
    (exampleReinitialized (some exampleIndex)) (exampleRepulled (some exampleIndex)) 1
    [(true, some ⟨exampleTile.rows, [false, true]⟩)] rfl rfl

/-! ## The evaluations of the predicate in the log -/

theorem filterTuple_log (p : AbstractExpression) (ctx : ExecutorContext) (k : Nat)
    (acc : LogicalTile × List Event) (a : Nat) :
    (filterTuple p ctx k acc a).2
      = acc.2 ++ (if acc.1.IsVisible a = true then [Event.evaluatePredicate k a] else []) := by
  unfold filterTuple
  by_cases hv : acc.1.IsVisible a = true
  · simp only [hv, if_true]
    split <;> rfl
  · simp [hv]

/-- The row loop evaluates the predicate exactly on the rows that are visible
when the loop starts, once each, in row order: a row is still as it was when
the loop reaches it. -/
theorem foldl_filterTuple_log (p : AbstractExpression) (ctx : ExecutorContext) (k : Nat)
    (ids : List Nat) (hnd : ids.Nodup) (acc : LogicalTile × List Event) :
    (ids.foldl (filterTuple p ctx k) acc).2
      = acc.2 ++ (ids.filter (fun i => acc.1.IsVisible i)).map (Event.evaluatePredicate k) := by
  induction ids generalizing acc with
  | nil => simp
  | cons a ids ih =>
    rw [List.nodup_cons] at hnd
    rw [List.foldl_cons, ih hnd.2, filterTuple_log]
    have hcongr : ids.filter (fun i => (filterTuple p ctx k acc a).1.IsVisible i)
        = ids.filter (fun i => acc.1.IsVisible i) := by
      apply List.filter_congr
      intro i hi
      have hne : i ≠ a := fun h => hnd.1 (h ▸ hi)
      rw [filterTuple_isVisible, if_neg hne]
    rw [hcongr]
    by_cases hv : acc.1.IsVisible a = true
    · simp [hv, List.filter_cons]
    · simp [hv, List.filter_cons]

theorem filterTile_log (p : AbstractExpression) (ctx : ExecutorContext) (k : Nat)
    (t : LogicalTile) (log : List Event) :
    (filterTile p ctx k t log).2 = log ++ tileEvaluations (some p) k t := by
  unfold filterTile tileEvaluations
  exact foldl_filterTuple_log p ctx k _ (List.nodup_range _) (t, log)

theorem applyPredicate_log (s : IndexScanExecutor) (tile : LogicalTile)
    (h : s.result[s.result_itr]? = some tile) :
    (applyPredicate s).log = s.log ++ tileEvaluations s.predicate_ s.result_itr tile := by
  unfold applyPredicate
  split
  next p t hp ht =>
    rw [h] at ht
    cases ht
    rw [hp]
    exact filterTile_log p _ _ _ _
  next hne =>
    cases hp : s.predicate_ with
    | some p => exact absurd h (by intro h2; exact hne p tile hp h2)
    | none => simp [tileEvaluations]

theorem evaluationsFrom_congr (q : Option AbstractExpression) (T U : List LogicalTile)
    (a c : Nat) (h : ∀ k, a ≤ k → T[k]? = U[k]?) :
    evaluationsFrom q T a c = evaluationsFrom q U a c := by
  induction c generalizing a with
  | zero => rfl
  | succ c ih =>
    rw [evaluationsFrom, evaluationsFrom, h a (Nat.le_refl _),
      ih (a + 1) (fun k hk => h k (by omega))]

theorem evaluationsFrom_append (q : Option AbstractExpression) (T : List LogicalTile)
    (a c d : Nat) :
    evaluationsFrom q T a (c + d) = evaluationsFrom q T a c ++ evaluationsFrom q T (a + c) d := by
  induction c generalizing a with
  | zero => simp [evaluationsFrom]
  | succ c ih =>
    have e1 : c + 1 + d = (c + d) + 1 := by omega
    have e2 : a + (c + 1) = a + 1 + c := by omega
    rw [e1, evaluationsFrom, evaluationsFrom, ih (a + 1), e2, List.append_assoc]

/-- The loop of `DExecute` adds to the log the evaluations of the predicate on
the tiles it examines, and nothing else. -/
theorem DExecute_while_log (n : Nat) (s : IndexScanExecutor) :
    (DExecute_while n s).2.log
      = s.log ++ evaluationsFrom s.predicate_ s.result s.result_itr
          ((DExecute_while n s).2.result_itr - s.result_itr) := by
  induction n generalizing s with
  | zero => simp [DExecute_while, evaluationsFrom]
  | succ n ih =>
    obtain ⟨fp, _, fi, _, _, fl⟩ := applyPredicate_frame s
    by_cases hlt : s.result_itr < s.result.length
    · have hget : s.result[s.result_itr]? = some (s.result[s.result_itr]) :=
        List.getElem?_eq_getElem hlt
      have hres := applyPredicate_result s _ hget
      have hlog := applyPredicate_log s _ hget
      have hb := (loop_access_in_bounds s hlt).2
      rw [DExecute_while]
      simp only [hlt, if_true]
      cases hg : (applyPredicate s).result[(applyPredicate s).result_itr]? with
      | none => rw [hg] at hb; cases hb
      | some tile =>
        simp only
        by_cases hc : tile.GetTupleCount = 0
        · simp only [hc, if_true]
          obtain ⟨S2, hS2⟩ : ∃ S2, S2 = { applyPredicate s with
              result_itr := (applyPredicate s).result_itr + 1 } := ⟨_, rfl⟩
          have e1 : S2.result_itr = s.result_itr + 1 := by rw [hS2, ← fi]
          have e2 : S2.result = (applyPredicate s).result := by rw [hS2]
          have e3 : S2.predicate_ = s.predicate_ := by rw [hS2, ← fp]
          have e4 : S2.log = (applyPredicate s).log := by rw [hS2]
          rw [← hS2, ih S2, e1, e2, e3, e4, hlog]
          have hcur := DExecute_while_cursor n S2
          rw [e1] at hcur
          have hcount : (DExecute_while n S2).2.result_itr - s.result_itr
              = ((DExecute_while n S2).2.result_itr - (s.result_itr + 1)) + 1 := by omega
          rw [hcount, evaluationsFrom, hget, List.append_assoc]
          congr 2
          apply evaluationsFrom_congr
          intro k hk
          rw [hres, List.getElem?_set_ne (by omega)]
        · simp only [hc, if_false]
          rw [hlog, fi]
          have : s.result_itr + 1 - s.result_itr = 1 := by omega
          rw [this, evaluationsFrom, evaluationsFrom, hget, List.append_nil]
    · rw [DExecute_while]
      simp [hlt, evaluationsFrom]

/-- A run of pulls on a probed executor: the cursor only moves forward, the
tiles it passed are the residual filter of what they were, the others are
untouched, and the log has grown by the evaluations of the predicate on the
tiles passed. -/
theorem pulls_done_log (F : LogicalTileFactory) (m : Nat) (s s2 : IndexScanExecutor)
    (rs : List (Bool × Option LogicalTile)) (hd : s.done_ = true)
    (h : pulls F m s = .ok (rs, s2)) :
    s.result_itr ≤ s2.result_itr ∧
    (∀ k, s2.result[k]?
      = if s.result_itr ≤ k ∧ k < s2.result_itr then
          (s.result[k]?).map (residual s.predicate_ s.executor_context_)
        else s.result[k]?) ∧
    s2.log = s.log ++ evaluationsFrom s.predicate_ s.result s.result_itr
      (s2.result_itr - s.result_itr) := by
  induction m generalizing s rs with
  | zero =>
    simp only [pulls, Except.ok.injEq, Prod.mk.injEq] at h
    obtain ⟨_, rfl⟩ := h
    refine ⟨Nat.le_refl _, ?_, by simp [evaluationsFrom]⟩
    intro k
    have : ¬ (s.result_itr ≤ k ∧ k < s.result_itr) := by omega
    rw [if_neg this]
  | succ m ih =>
    rw [pulls, DExecute_done F s hd] at h
    simp only at h
    obtain ⟨p1, p2, p3, _, _⟩ :=
      DExecute_while_pending (s.result.length - s.result_itr) s (Nat.le_refl _)
    obtain ⟨r1, _, _, r4⟩ :=
      DExecute_while_result (s.result.length - s.result_itr) s (Nat.le_refl _)
    have hlog := DExecute_while_log (s.result.length - s.result_itr) s
    generalize DExecute_while (s.result.length - s.result_itr) s = r at h p1 p2 p3 r1 r4 hlog
    cases hrec : pulls F m r.2 with
    | error f => rw [hrec] at h; cases h
    | ok x =>
      obtain ⟨rs1, s3⟩ := x
      rw [hrec] at h
      simp only [Except.ok.injEq, Prod.mk.injEq] at h
      obtain ⟨_, rfl⟩ := h
      obtain ⟨i1, i2, i3⟩ := ih r.2 rs1 (by rw [p3, hd]) hrec
      rw [p1, p2] at i2
      rw [p1] at i3
      refine ⟨by omega, ?_, ?_⟩
      · intro k
        rw [i2 k, r4 k]
        by_cases hk1 : r.2.result_itr ≤ k ∧ k < s3.result_itr
        · have hk2 : ¬ (s.result_itr ≤ k ∧ k < r.2.result_itr) := by omega
          have hk3 : s.result_itr ≤ k ∧ k < s3.result_itr := by omega
          rw [if_pos hk1, if_neg hk2, if_pos hk3]
        · rw [if_neg hk1]
          by_cases hk2 : s.result_itr ≤ k ∧ k < r.2.result_itr
          · have hk3 : s.result_itr ≤ k ∧ k < s3.result_itr := by omega
            rw [if_pos hk2, if_pos hk3]
          · have hk3 : ¬ (s.result_itr ≤ k ∧ k < s3.result_itr) := by omega
            rw [if_neg hk2, if_neg hk3]
      · rw [i3, hlog, List.append_assoc]
        congr 1
        have hcount : s3.result_itr - s.result_itr
            = (r.2.result_itr - s.result_itr) + (s3.result_itr - r.2.result_itr) := by omega
        have hstart : s.result_itr + (r.2.result_itr - s.result_itr) = r.2.result_itr := by omega
        rw [hcount, evaluationsFrom_append, hstart]
        congr 1
        apply evaluationsFrom_congr
        intro k hk
        rw [r4 k]
        have : ¬ (s.result_itr ≤ k ∧ k < r.2.result_itr) := by omega
        rw [if_neg this]

theorem mem_tileEvaluations (q : Option AbstractExpression) (k : Nat) (t : LogicalTile)
    (e : Event) (h : e ∈ tileEvaluations q k t) :
    ∃ i, e = Event.evaluatePredicate k i ∧ t.IsVisible i = true := by
  unfold tileEvaluations at h
  cases q with
  | none => simp at h
  | some p =>
    simp only [List.mem_map, List.mem_filter] at h
    obtain ⟨i, ⟨_, hv⟩, rfl⟩ := h
    exact ⟨i, rfl, hv⟩

theorem tileEvaluations_nodup (q : Option AbstractExpression) (k : Nat) (t : LogicalTile) :
    (tileEvaluations q k t).Nodup := by
  unfold tileEvaluations
  cases q with
  | none => exact List.nodup_nil
  | some p =>
    apply List.Nodup.map
    · intro a b hab
      cases hab
      rfl
    · exact List.Nodup.filter _ (List.nodup_range _)

/-- Every evaluation listed for the tiles from `a` on is on a tile in that
range and on a row visible in it. -/
theorem mem_evaluationsFrom (q : Option AbstractExpression) (T : List LogicalTile) (a c : Nat)
    (e : Event) (h : e ∈ evaluationsFrom q T a c) :
    ∃ k i t, e = Event.evaluatePredicate k i ∧ a ≤ k ∧ k < a + c ∧ T[k]? = some t ∧
      t.IsVisible i = true := by
  induction c generalizing a with
  | zero => simp [evaluationsFrom] at h
  | succ c ih =>
    rw [evaluationsFrom, List.mem_append] at h
    rcases h with h | h
    · cases ht : T[a]? with
      | none => rw [ht] at h; simp at h
      | some t =>
        rw [ht] at h
        obtain ⟨i, he, hv⟩ := mem_tileEvaluations q a t e h
        exact ⟨a, i, t, he, Nat.le_refl _, by omega, ht, hv⟩
    · obtain ⟨k, i, t, he, h1, h2, h3, h4⟩ := ih (a + 1) h
      exact ⟨k, i, t, he, by omega, by omega, h3, h4⟩

/-- No evaluation is listed twice. -/
theorem evaluationsFrom_nodup (q : Option AbstractExpression) (T : List LogicalTile)
    (a c : Nat) : (evaluationsFrom q T a c).Nodup := by
  induction c generalizing a with
  | zero => exact List.nodup_nil
  | succ c ih =>
    rw [evaluationsFrom, List.nodup_append]
    refine ⟨?_, ih (a + 1), ?_⟩
    · cases T[a]? with
      | none => exact List.nodup_nil
      | some t => exact tileEvaluations_nodup q a t
    · intro e h1 h2
      obtain ⟨k, i, t, he, hk, _⟩ := mem_evaluationsFrom q T (a + 1) c e h2
      cases ht : T[a]? with
      | none => rw [ht] at h1; simp at h1
      | some u =>
        rw [ht] at h1
        obtain ⟨i2, he2, _⟩ := mem_tileEvaluations q a u e h1
        rw [he] at he2
        cases he2
        omega

theorem probedEmpty_iterate_log (j : Nat) (s : IndexScanExecutor) :
    ∃ calls, (probedEmpty^[j] s).log = s.log ++ calls ∧ ∀ e ∈ calls, e.isProbe = true := by
  induction j generalizing s with
  | zero => exact ⟨[], by simp, by simp⟩
  | succ j ih =>
    obtain ⟨calls, h1, h2⟩ := ih (probedEmpty s)
    refine ⟨scanCall s :: calls, ?_, ?_⟩
    · rw [Function.iterate_succ_apply, h1]
      show s.log ++ [scanCall s] ++ calls = _
      simp
    · intro e he
      rcases List.mem_cons.mp he with he | he
      · rw [he]; exact scanCall_isProbe s
      · exact h2 e he

/-! ## C16: the predicate is evaluated once per visible row -/

theorem filter_isPredicate_evaluationsFrom (q : Option AbstractExpression)
    (T : List LogicalTile) (a c : Nat) :
    (evaluationsFrom q T a c).filter Event.isPredicate = evaluationsFrom q T a c := by
  rw [List.filter_eq_self]
  intro e he
  obtain ⟨k, i, t, rfl, _⟩ := mem_evaluationsFrom q T a c e he
  rfl

theorem filter_isPredicate_probes (calls : List Event) (h : ∀ e ∈ calls, e.isProbe = true) :
    calls.filter Event.isPredicate = [] := by
  rw [List.filter_eq_nil_iff]
  intro e he
  have := h e he
  cases e <;> simp_all [Event.isProbe, Event.isPredicate]

/-- C16 (predicate evaluated once per visible row): after a successful
`DInit`, a run of pulls adds to the log index probes (`calls`) followed by the
evaluations of the predicate on the tiles below the cursor of the materialised
result `tiles`, one for each row visible in its tile as materialised and no
other. So no (tile, row) pair is evaluated twice, every evaluation is on a
tile the cursor has passed and on a row that was visible when it was
evaluated (`foldl_filterTuple_log`: a row is untouched until the row loop
reaches it), and the tiles at or after the cursor are still as materialised,
with no evaluation on them. -/
theorem pulls_predicate_once (F : LogicalTileFactory) (status : Bool)
    (s0 s s2 : IndexScanExecutor) (m : Nat) (rs : List (Bool × Option LogicalTile))
    (hinit : DInit status s0 = .ok (true, s)) (h : pulls F m s = .ok (rs, s2)) :
    ∃ (calls : List Event) (tiles : List LogicalTile),
      s2.log = s.log ++ (calls ++ evaluationsFrom s.predicate_ tiles 0 s2.result_itr) ∧
      (∀ e ∈ calls, e.isProbe = true) ∧
      (calls ++ evaluationsFrom s.predicate_ tiles 0 s2.result_itr).filter Event.isPredicate
        = evaluationsFrom s.predicate_ tiles 0 s2.result_itr ∧
      (evaluationsFrom s.predicate_ tiles 0 s2.result_itr).Nodup ∧
      (∀ e ∈ evaluationsFrom s.predicate_ tiles 0 s2.result_itr,
        ∃ k i t, e = Event.evaluatePredicate k i ∧ k < s2.result_itr ∧ tiles[k]? = some t ∧
          t.IsVisible i = true) ∧
      (∀ k, s2.result[k]?
        = if k < s2.result_itr then
            (tiles[k]?).map (residual s.predicate_ s.executor_context_)
          else tiles[k]?) := by
  obtain ⟨hd, hitr, _⟩ := DInit_ok status s0 s hinit
  rw [START_OID] at hitr
  have finish : ∀ (calls : List Event) (tiles : List LogicalTile),
      s2.log = s.log ++ (calls ++ evaluationsFrom s.predicate_ tiles 0 s2.result_itr) →
      (∀ e ∈ calls, e.isProbe = true) →
      (∀ k, s2.result[k]?
        = if k < s2.result_itr then
            (tiles[k]?).map (residual s.predicate_ s.executor_context_)
          else tiles[k]?) →
      ∃ (calls : List Event) (tiles : List LogicalTile),
      s2.log = s.log ++ (calls ++ evaluationsFrom s.predicate_ tiles 0 s2.result_itr) ∧
      (∀ e ∈ calls, e.isProbe = true) ∧
      (calls ++ evaluationsFrom s.predicate_ tiles 0 s2.result_itr).filter Event.isPredicate
        = evaluationsFrom s.predicate_ tiles 0 s2.result_itr ∧
      (evaluationsFrom s.predicate_ tiles 0 s2.result_itr).Nodup ∧
      (∀ e ∈ evaluationsFrom s.predicate_ tiles 0 s2.result_itr,
        ∃ k i t, e = Event.evaluatePredicate k i ∧ k < s2.result_itr ∧ tiles[k]? = some t ∧
          t.IsVisible i = true) ∧
      (∀ k, s2.result[k]?
        = if k < s2.result_itr then
            (tiles[k]?).map (residual s.predicate_ s.executor_context_)
          else tiles[k]?) := by
    intro calls tiles hlog hcalls hres
    refine ⟨calls, tiles, hlog, hcalls, ?_, evaluationsFrom_nodup _ _ _ _, ?_, hres⟩
    · rw [List.filter_append, filter_isPredicate_probes calls hcalls,
        filter_isPredicate_evaluationsFrom, List.nil_append]
    · intro e he
      obtain ⟨k, i, t, h1, _, h3, h4, h5⟩ := mem_evaluationsFrom _ _ _ _ e he
      exact ⟨k, i, t, h1, by omega, h4, h5⟩
  rcases pulls_not_done F m s s2 rs hd h with ⟨_, h2⟩ | ⟨j, index, rs1, _, hi, hl, hp, _⟩
  · obtain ⟨_, _, _, _, f5, f6, _⟩ := probedEmpty_iterate_frame m s
    obtain ⟨calls, hc1, hc2⟩ := probedEmpty_iterate_log m s
    have hitr2 : s2.result_itr = 0 := by rw [h2, f5, hitr]
    apply finish calls s.result
    · rw [hitr2, h2, hc1]
      simp [evaluationsFrom]
    · exact hc2
    · intro k
      rw [hitr2, h2, f6]
      simp
  · obtain ⟨_, _, f3, f4, f5, _⟩ := probedEmpty_iterate_frame j s
    obtain ⟨calls, hc1, hc2⟩ := probedEmpty_iterate_log j s
    obtain ⟨_, g2, g3⟩ := pulls_done_log F (m - j) (probed F index (probedEmpty^[j] s)) s2 rs1
      rfl hp
    have e1 : (probed F index (probedEmpty^[j] s)).result_itr = 0 := by
      show (probedEmpty^[j] s).result_itr = 0
      rw [f5, hitr]
    have e2 : (probed F index (probedEmpty^[j] s)).predicate_ = s.predicate_ := f3
    have e3 : (probed F index (probedEmpty^[j] s)).executor_context_ = s.executor_context_ := f4
    have e4 : (probed F index (probedEmpty^[j] s)).log
        = s.log ++ (calls ++ [scanCall (probedEmpty^[j] s)]) := by
      show (probedEmpty^[j] s).log ++ [scanCall (probedEmpty^[j] s)] = _
      rw [hc1, List.append_assoc]
    rw [e1, e2, e3] at g2
    rw [e1, e2, e4, Nat.sub_zero] at g3
    apply finish (calls ++ [scanCall (probedEmpty^[j] s)])
      (probed F index (probedEmpty^[j] s)).result
    · rw [g3, List.append_assoc, List.append_assoc]
    · intro e he
      rcases List.mem_append.mp he with he | he
      · exact hc2 e he
      · rw [List.mem_singleton.mp he]
        exact scanCall_isProbe _
    · intro k
      rw [g2 k]
      simp

/-- C16, on the example of the spec: two pulls after `DInit` log one probe and
one evaluation of `id > 1` on each of the two rows of the tile. -/
theorem pulls_predicate_once_witness :
    (examplePulledTwice (some exampleIndex)).log
      = [Event.indexScan [Value.integer 1] [0] [15], Event.evaluatePredicate 0 0,
          Event.evaluatePredicate 0 1] ∧
    ∃ (calls : List Event) (tiles : List LogicalTile),
      (examplePulledTwice (some exampleIndex)).log
        = (exampleInitialized (some exampleIndex)).log ++
          (calls ++ evaluationsFrom (exampleInitialized (some exampleIndex)).predicate_ tiles 0
            (examplePulledTwice (some exampleIndex)).result_itr) ∧
      (∀ e ∈ calls, e.isProbe = true) ∧
      (calls ++ evaluationsFrom (exampleInitialized (some exampleIndex)).predicate_ tiles 0
          (examplePulledTwice (some exampleIndex)).result_itr).filter Event.isPredicate
        = evaluationsFrom (exampleInitialized (some exampleIndex)).predicate_ tiles 0
            (examplePulledTwice (some exampleIndex)).result_itr ∧
      (evaluationsFrom (exampleInitialized (some exampleIndex)).predicate_ tiles 0
        (examplePulledTwice (some exampleIndex)).result_itr).Nodup ∧
      (∀ e ∈ evaluationsFrom (exampleInitialized (some exampleIndex)).predicate_ tiles 0
          (examplePulledTwice (some exampleIndex)).result_itr,
        ∃ k i t, e = Event.evaluatePredicate k i ∧
          k < (examplePulledTwice (some exampleIndex)).result_itr ∧ tiles[k]? = some t ∧
          t.IsVisible i = true) ∧
      (∀ k, (examplePulledTwice (some exampleIndex)).result[k]?
        = if k < (examplePulledTwice (some exampleIndex)).result_itr then
            (tiles[k]?).map (residual (exampleInitialized (some exampleIndex)).predicate_
              (exampleInitialized (some exampleIndex)).executor_context_)
          else tiles[k]?) :=
  ⟨rfl, pulls_predicate_once exampleFactory true (exampleExecutor (some exampleIndex))
    (exampleInitialized (some exampleIndex)) (examplePulledTwice (some exampleIndex)) 2
    [(true, some ⟨exampleTile.rows, [false, true]⟩), (false, none)] rfl rfl⟩

/-! ## C13: the visibility law, on the factory of the spec -/

theorem mem_resolvedVersions (resolve : Resolution) (st : Storage) (txn_id : txn_id_t)
    (last_commit_id : cid_t) (locs : List ItemPointer) (p : ItemPointer) :
    p ∈ resolvedVersions resolve st txn_id last_commit_id locs ↔
      ∃ loc ∈ locs, resolve (st.IsVisible txn_id last_commit_id) (st.chain loc) = some p := by
  unfold resolvedVersions
  rw [List.mem_filterMap]

/-- The rows of the tiles of the factory of the spec are the selected columns
of the versions it resolves, every resolved version with a record is a row of
a tile, and every row of a tile is visible. -/
theorem WrapLocations_rows (resolve : Resolution) (st : Storage) (locs : List ItemPointer)
    (column_ids : List Nat) (txn_id : txn_id_t) (last_commit_id : cid_t) :
    (∀ tile ∈ (WrapLocations resolve st).WrapTileGroups locs column_ids txn_id last_commit_id,
      tile.GetTupleCount = tile.rows.length ∧
      ∀ row ∈ tile.rows, ∃ p ∈ resolvedVersions resolve st txn_id last_commit_id locs,
        ∃ v, st.version p = some v ∧ row = projectVersion column_ids v) ∧
    (∀ p ∈ resolvedVersions resolve st txn_id last_commit_id locs,
      ∀ v, st.version p = some v →
        ∃ tile ∈ (WrapLocations resolve st).WrapTileGroups locs column_ids txn_id
            last_commit_id,
          projectVersion column_ids v ∈ tile.rows) := by
  constructor
  · intro tile htile
    simp only [WrapLocations, List.mem_map] at htile
    obtain ⟨b, _, rfl⟩ := htile
    constructor
    · simp [wrapBlock, LogicalTile.GetTupleCount, List.count_eq_length]
    · intro row hrow
      simp only [wrapBlock, List.mem_map, List.mem_filterMap] at hrow
      obtain ⟨v, ⟨p, hp, hv⟩, rfl⟩ := hrow
      obtain ⟨loc, hloc, hres⟩ := (mem_resolvedVersions _ _ _ _ _ _).mp hp
      exact ⟨p, (mem_resolvedVersions _ _ _ _ _ _).mpr ⟨loc, (List.mem_filter.mp hloc).1, hres⟩,
        v, hv, rfl⟩
  · intro p hp v hv
    obtain ⟨loc, hloc, hres⟩ := (mem_resolvedVersions _ _ _ _ _ _).mp hp
    refine ⟨wrapBlock resolve st locs column_ids txn_id last_commit_id loc.block, ?_, ?_⟩
    · simp only [WrapLocations, List.mem_map, List.mem_dedup]
      exact ⟨loc.block, ⟨loc, hloc, rfl⟩, rfl⟩
    · simp only [wrapBlock, List.mem_map, List.mem_filterMap]
      refine ⟨v, ⟨p, ?_, hv⟩, rfl⟩
      exact (mem_resolvedVersions _ _ _ _ _ _).mpr
        ⟨loc, List.mem_filter.mpr ⟨hloc, by simp⟩, hres⟩

/-- The four ways a pull can go. -/
theorem DExecute_cases (F : LogicalTileFactory) (s : IndexScanExecutor) :
    (s.done_ = true ∧
      DExecute F s = .ok (DExecute_while (s.result.length - s.result_itr) s)) ∨
    (s.done_ = false ∧ s.index_ = none ∧ DExecute F s = .error Fault.nullPointer) ∨
    (∃ index, s.done_ = false ∧ s.index_ = some index ∧ tupleLocations index s = [] ∧
      DExecute F s = .ok (false, probedEmpty s)) ∨
    (∃ index, s.done_ = false ∧ s.index_ = some index ∧ tupleLocations index s ≠ [] ∧
      DExecute F s = .ok (DExecute_while
        ((probed F index s).result.length - (probed F index s).result_itr)
        (probed F index s))) := by
  cases hd : s.done_ with
  | true => exact Or.inl ⟨rfl, DExecute_done F s hd⟩
  | false =>
    right
    cases hi : s.index_ with
    | none =>
      left
      refine ⟨rfl, rfl, ?_⟩
      simp [DExecute, DExecute_lookup, ExecIndexLookup, hd, hi]
    | some index =>
      right
      by_cases hl : tupleLocations index s = []
      · exact Or.inl ⟨index, rfl, rfl, hl, DExecute_probedEmpty F s index hd hi hl⟩
      · refine Or.inr ⟨index, rfl, rfl, hl, ?_⟩
        rw [DExecute_probed F s index hd hi hl, DExecute_done F _ rfl]

theorem runtimeKeyEvals_append (l1 l2 : List Event) :
    runtimeKeyEvals (l1 ++ l2) = runtimeKeyEvals l1 ++ runtimeKeyEvals l2 := by
  simp [runtimeKeyEvals, List.filter_append]

theorem runtimeKeyEvals_evaluationsFrom (q : Option AbstractExpression)
    (T : List LogicalTile) (a c : Nat) : runtimeKeyEvals (evaluationsFrom q T a c) = [] := by
  unfold runtimeKeyEvals
  rw [List.filter_eq_nil_iff]
  intro e he
  obtain ⟨k, i, t, rfl, _⟩ := mem_evaluationsFrom q T a c e he
  simp [Event.isRuntimeKey]

theorem runtimeKeyEvals_scanCall (s : IndexScanExecutor) :
    runtimeKeyEvals (s.log ++ [scanCall s]) = runtimeKeyEvals s.log := by
  rw [runtimeKeyEvals_append]
  have : runtimeKeyEvals [scanCall s] = [] := by
    unfold scanCall
    split <;> rfl
  rw [this, List.append_nil]

theorem applyPredicate_keys (s : IndexScanExecutor) :
    (applyPredicate s).node = s.node ∧ (applyPredicate s).children_ = s.children_ ∧
    (applyPredicate s).index_ = s.index_ ∧ (applyPredicate s).key_ready = s.key_ready ∧
    (applyPredicate s).values_ = s.values_ := by
  unfold applyPredicate
  split <;> simp

/-- The loop of `DExecute` leaves the plan node, the index, the key values and
the `key_ready` flag alone. -/
theorem DExecute_while_keys (n : Nat) (s : IndexScanExecutor) :
    (DExecute_while n s).2.node = s.node ∧ (DExecute_while n s).2.children_ = s.children_ ∧
    (DExecute_while n s).2.index_ = s.index_ ∧
    (DExecute_while n s).2.key_ready = s.key_ready ∧
    (DExecute_while n s).2.values_ = s.values_ := by
  induction n generalizing s with
  | zero => exact ⟨rfl, rfl, rfl, rfl, rfl⟩
  | succ n ih =>
    obtain ⟨a1, a2, a3, a4, a5⟩ := applyPredicate_keys s
    rw [DExecute_while]
    by_cases hlt : s.result_itr < s.result.length
    · simp only [hlt, if_true]
      cases (applyPredicate s).result[(applyPredicate s).result_itr]? with
      | none => exact ⟨a1, a2, a3, a4, a5⟩
      | some tile =>
        simp only
        by_cases hc : tile.GetTupleCount = 0
        · simp only [hc, if_true]
          obtain ⟨i1, i2, i3, i4, i5⟩ :=
            ih { applyPredicate s with result_itr := (applyPredicate s).result_itr + 1 }
          exact ⟨i1.trans a1, i2.trans a2, i3.trans a3, i4.trans a4, i5.trans a5⟩
        · simp only [hc, if_false]
          exact ⟨a1, a2, a3, a4, a5⟩
    · simp only [hlt, if_false, and_self]

theorem DExecute_while_runtimeKeyEvals (n : Nat) (s : IndexScanExecutor) :
    runtimeKeyEvals (DExecute_while n s).2.log = runtimeKeyEvals s.log := by
  rw [DExecute_while_log, runtimeKeyEvals_append, runtimeKeyEvals_evaluationsFrom,
    List.append_nil]

/-- A pull evaluates no runtime key and leaves the plan node, the index, the
key values and the `key_ready` flag alone. -/
theorem DExecute_keys (F : LogicalTileFactory) (s s2 : IndexScanExecutor) (b : Bool)
    (h : DExecute F s = .ok (b, s2)) :
    s2.node = s.node ∧ s2.children_ = s.children_ ∧ s2.index_ = s.index_ ∧
    s2.key_ready = s.key_ready ∧ s2.values_ = s.values_ ∧
    runtimeKeyEvals s2.log = runtimeKeyEvals s.log := by
  rcases DExecute_cases F s with ⟨_, h1⟩ | ⟨_, _, h1⟩ | ⟨index, _, _, _, h1⟩ | ⟨index, _, _, _, h1⟩
  · rw [h1] at h
    simp only [Except.ok.injEq] at h
    obtain ⟨k1, k2, k3, k4, k5⟩ := DExecute_while_keys (s.result.length - s.result_itr) s
    have k6 := DExecute_while_runtimeKeyEvals (s.result.length - s.result_itr) s
    rw [h] at k1 k2 k3 k4 k5 k6
    exact ⟨k1, k2, k3, k4, k5, k6⟩
  · rw [h1] at h; cases h
  · rw [h1] at h
    simp only [Except.ok.injEq, Prod.mk.injEq] at h
    rw [← h.2]
    exact ⟨rfl, rfl, rfl, rfl, rfl, runtimeKeyEvals_scanCall s⟩
  · rw [h1] at h
    simp only [Except.ok.injEq] at h
    obtain ⟨k1, k2, k3, k4, k5⟩ := DExecute_while_keys
      ((probed F index s).result.length - (probed F index s).result_itr) (probed F index s)
    have k6 := DExecute_while_runtimeKeyEvals
      ((probed F index s).result.length - (probed F index s).result_itr) (probed F index s)
    rw [h] at k1 k2 k3 k4 k5 k6
    exact ⟨k1, k2, k3, k4, k5, k6.trans (runtimeKeyEvals_scanCall s)⟩

/-- A pull on an executor with an index returns. -/
theorem DExecute_total (F : LogicalTileFactory) (s : IndexScanExecutor)
    (hi : s.index_.isNone = false) : ∃ r, DExecute F s = .ok r := by
  rcases DExecute_cases F s with ⟨_, h1⟩ | ⟨_, h0, _⟩ | ⟨index, _, _, _, h1⟩ | ⟨index, _, _, _, h1⟩
  · exact ⟨_, h1⟩
  · rw [h0] at hi; cases hi
  · exact ⟨_, h1⟩
  · exact ⟨_, h1⟩

/-- A re-initialisation with the keys ready succeeds, evaluates nothing and
keeps the keys ready. -/
theorem DInit_ready (s : IndexScanExecutor) (hc : s.children_ = 0)
    (hi : s.node.index.isNone = false)
    (hv : s.node.runtime_keys.length ≠ 0 → s.node.runtime_keys.length = s.node.values.length)
    (hr : s.key_ready = true) :
    ∃ s1, DInit true s = .ok (true, s1) ∧ s1.node = s.node ∧ s1.children_ = s.children_ ∧
      s1.index_ = s.node.index ∧ s1.key_ready = true ∧ s1.log = s.log := by
  obtain ⟨c1, _, _, c4, c5, _, _, _, _, _, _, c12, _, _, c15⟩ :=
    DInit_columns_frame (DInit_keys (DInit_grab s))
  have hk : DInit_keys (DInit_grab s) = DInit_grab s := DInit_keys_ready _ hr
  exact ⟨_, DInit_success s hc hi hv, c1.trans (by rw [hk]; rfl), c4.trans (by rw [hk]; rfl),
    c5.trans (by rw [hk]; rfl), (c12.trans (by rw [hk]; rfl)).trans hr,
    c15.trans (by rw [hk]; rfl)⟩

/-- Once the runtime keys are ready, a run of calls of `DInit` and `DExecute`
in any order returns, every `DInit` of it succeeds, and it evaluates no
runtime key. -/
theorem calls_ready (F : LogicalTileFactory) (cs : List Call) (s : IndexScanExecutor)
    (hc : s.children_ = 0) (hi : s.node.index.isNone = false) (hx : s.index_ = s.node.index)
    (hv : s.node.runtime_keys.length ≠ 0 → s.node.runtime_keys.length = s.node.values.length)
    (hr : s.key_ready = true) :
    ∃ rs s2, calls F cs s = .ok (rs, s2) ∧ (∀ b, (Call.init, b) ∈ rs → b = true) ∧
      s2.key_ready = true ∧ runtimeKeyEvals s2.log = runtimeKeyEvals s.log := by
  induction cs generalizing s with
  | nil => exact ⟨[], s, rfl, by simp, hr, rfl⟩
  | cons c cs ih =>
    cases c with
    | init =>
      obtain ⟨s1, h1, n1, n2, n3, n4, n5⟩ := DInit_ready s hc hi hv hr
      obtain ⟨rs, s2, h2, hb, hk, hl⟩ := ih s1 (by rw [n2, hc]) (by rw [n1, hi])
        (by rw [n3, n1]) (by rw [n1]; exact hv) n4
      refine ⟨(Call.init, true) :: rs, s2, ?_, ?_, hk, by rw [hl, n5]⟩
      · rw [calls]
        simp only [h1, h2]
      · intro b hmem
        rcases List.mem_cons.mp hmem with he | he
        · exact (Prod.mk.inj he).2
        · exact hb b he
    | pull =>
      obtain ⟨r, h1⟩ := DExecute_total F s (by rw [hx, hi])
      obtain ⟨k1, k2, k3, k4, _, k6⟩ := DExecute_keys F s r.2 r.1 h1
      obtain ⟨rs, s2, h2, hb, hk, hl⟩ := ih r.2 (by rw [k2, hc]) (by rw [k1, hi])
        (by rw [k3, k1, hx]) (by rw [k1]; exact hv) (by rw [k4, hr])
      refine ⟨(Call.pull, r.1) :: rs, s2, ?_, ?_, hk, by rw [hl, k6]⟩
      · rw [calls]
        simp only [h1, h2]
      · intro b hmem
        rcases List.mem_cons.mp hmem with he | he
        · cases (Prod.mk.inj he).1
        · exact hb b he

/-- C8 (runtime keys are evaluated exactly once): on an executor whose keys
are not ready yet and whose plan has k >= 1 runtime keys and k values, the
first `DInit` succeeds, evaluates the runtime keys 0, .., k-1 once each, in
order, each with no tuple as argument, and leaves in `values_` exactly the
values of these evaluations; every run of further calls of `DInit` and
`DExecute`, in any order, returns, every `DInit` of it succeeds, and the
runtime key evaluations in the log are still the k of the first `DInit`: a
re-initialisation evaluates nothing. -/
theorem calls_runtime_keys_once (F : LogicalTileFactory) (s : IndexScanExecutor)
    (cs : List Call) (hr : s.key_ready = false) (hc : s.children_ = 0)
    (hi : s.node.index.isNone = false) (hk : 1 ≤ s.node.runtime_keys.length)
    (hv : s.node.runtime_keys.length = s.node.values.length) :
    ∃ s1 rs s2, DInit true s = .ok (true, s1) ∧
      s1.values_ = s.node.runtime_keys.map (fun e => e.Evaluate none none s.executor_context_) ∧
      s1.values_.length = s.node.runtime_keys.length ∧
      s1.log = s.log ++ (List.range s.node.runtime_keys.length).map
        (fun i => Event.evaluateRuntimeKey i none) ∧
      calls F cs s1 = .ok (rs, s2) ∧
      (∀ b, (Call.init, b) ∈ rs → b = true) ∧
      runtimeKeyEvals s2.log = runtimeKeyEvals s.log ++
        (List.range s.node.runtime_keys.length).map (fun i => Event.evaluateRuntimeKey i none) := by
  have hv2 : s.node.runtime_keys.length ≠ 0 → s.node.runtime_keys.length = s.node.values.length :=
    fun _ => hv
  have hinit := DInit_success s hc hi hv2
  obtain ⟨l1, l2, l3⟩ := DInit_keys_first (DInit_grab s)
    (by show s.node.runtime_keys.length ≠ 0; omega) hr
  obtain ⟨c1, _, _, c4, c5, _, _, _, _, c10, _, c12, _, _, c15⟩ :=
    DInit_columns_frame (DInit_keys (DInit_grab s))
  obtain ⟨k1, _, _, k4, k5, _⟩ := DInit_keys_frame (DInit_grab s)
  have hvals : (DInit_columns (DInit_keys (DInit_grab s))).values_
      = s.node.runtime_keys.map (fun e => e.Evaluate none none s.executor_context_) := by
    rw [c10, l2]; rfl
  have hlog1 : (DInit_columns (DInit_keys (DInit_grab s))).log
      = s.log ++ (List.range s.node.runtime_keys.length).map
          (fun i => Event.evaluateRuntimeKey i none) := by
    rw [c15, l1]; rfl
  obtain ⟨rs, s2, h2, hb, _, hl⟩ := calls_ready F cs (DInit_columns (DInit_keys (DInit_grab s)))
    (by rw [c4, k4]; exact hc) (by rw [c1, k1]; exact hi) (by rw [c5, k5, c1, k1]; rfl)
    (by rw [c1, k1]; exact hv2) (by rw [c12, l3])
  refine ⟨_, rs, s2, hinit, hvals, by rw [hvals, List.length_map], hlog1, h2, hb, ?_⟩
  rw [hl, hlog1, runtimeKeyEvals_append]
  congr 1
  unfold runtimeKeyEvals
  rw [List.filter_eq_self]
  intro e he
  obtain ⟨i, _, rfl⟩ := List.mem_map.mp he
  rfl

/-- C8, on an executor with two runtime keys that read the parameters 7 and 8
of the query when given no tuple: the first `DInit` caches 7 and 8, and a run
of a pull, a second `DInit` and another pull evaluates no key again. -/
theorem calls_runtime_keys_once_witness :
    ∃ s1 rs s2, DInit true parameterKeyExecutor = .ok (true, s1) ∧
      s1.values_ = [Value.integer 7, Value.integer 8] ∧
      s1.values_.length = 2 ∧
      s1.log = [Event.evaluateRuntimeKey 0 none, Event.evaluateRuntimeKey 1 none] ∧
      calls exampleFactory [Call.pull, Call.init, Call.pull] s1 = .ok (rs, s2) ∧
      (∀ b, (Call.init, b) ∈ rs → b = true) ∧
      runtimeKeyEvals s2.log
        = [Event.evaluateRuntimeKey 0 none, Event.evaluateRuntimeKey 1 none] :=
  calls_runtime_keys_once exampleFactory parameterKeyExecutor
    [Call.pull, Call.init, Call.pull] rfl rfl rfl (by decide) rfl

/-! ## C10: a malformed plan -/

/-- Where `DInit` succeeds with the assertions checked, the build without
assertions returns the same. -/
theorem DInit_ndebug_of_ok (status : Bool) (s s1 : IndexScanExecutor)
    (h : DInit status s = .ok (true, s1)) : DInit_ndebug status s = .ok (true, s1) := by
  obtain ⟨hs, _, _, _, rfl⟩ := DInit_eq_ok status s s1 h
  simp [DInit_ndebug, hs]

/-- C10 (code): `DInit` never returns false because of the plan. On the scan
of the spec without an index, and on a plan with two runtime keys and one key
value, the build with assertions stops at the failed `assert`; the build with
`NDEBUG` returns true, after which the next pull dereferences the null index
in the first case and probes the index in the second. -/
theorem DInit_malformed_plan_reports_success :
    (exampleExecutor none).node.index.isNone = true ∧
    DInit true (exampleExecutor none) = .error Fault.assertion ∧
    (DInit_ndebug true (exampleExecutor none)).map (fun r => r.1) = .ok true ∧
    ((DInit_ndebug true (exampleExecutor none)).bind
        (fun r => DExecute exampleFactory r.2)).map (fun r => r.1)
      = .error Fault.nullPointer ∧
    mismatchedExecutor.node.runtime_keys.length = 2 ∧
    mismatchedExecutor.node.values.length = 1 ∧
    DInit true mismatchedExecutor = .error Fault.assertion ∧
    (DInit_ndebug true mismatchedExecutor).map (fun r => (r.1, r.2.values_))
      = .ok (true, [Value.integer 7, Value.integer 8]) ∧
    ((DInit_ndebug true mismatchedExecutor).bind
        (fun r => DExecute exampleFactory r.2)).map (fun r => (r.1, probeCount r.2.log))
      = .ok (true, 1) :=
  ⟨rfl, rfl, rfl, rfl, rfl, rfl, rfl, rfl, rfl⟩

/-- C10, as the code has it: the plan is guarded by `assert` only. When the
index of the plan node is absent, or runtime keys are configured and their
number differs from the number of key values: with the assertions checked,
`DInit` returns false, the executor untouched, exactly when the base class
initialisation failed, and otherwise stops at a failed assertion, so it never
reports success and leaves no state from which a probe could be made; compiled
with `NDEBUG`, it returns what the base class initialisation returned, true
included. -/
theorem DInit_malformed_plan_asserts (status : Bool) (s : IndexScanExecutor)
    (h : s.node.index = none ∨
      (s.node.runtime_keys.length ≠ 0 ∧ s.node.runtime_keys.length ≠ s.node.values.length)) :
    (∀ s1, DInit status s ≠ .ok (true, s1)) ∧
    (status = false → DInit status s = .ok (false, s)) ∧
    (status = true → DInit status s = .error Fault.assertion) ∧
    (status = false → DInit_ndebug status s = .ok (false, s)) ∧
    (status = true →
      DInit_ndebug status s = .ok (true, DInit_columns (DInit_keys (DInit_grab s)))) := by
  obtain ⟨h1, h2⟩ := DInit_fails_on_malformed_plan status s h
  refine ⟨h1, ?_, ?_, ?_, ?_⟩
  · intro hs
    simp [DInit, hs]
  · intro hs
    rcases h2 with h2 | h2
    · rw [hs] at h2
      simp only [DInit, Bool.not_true, Bool.false_eq_true, if_false] at h2
      repeat' split at h2
      all_goals cases h2
    · rw [hs] at h2 ⊢
      exact h2
  · intro hs
    simp [DInit_ndebug, hs]
  · intro hs
    simp [DInit_ndebug, hs]

/-- C10, on the scan of the spec without an index, after a successful base
class initialisation. -/
theorem DInit_malformed_plan_asserts_witness :
    DInit true (exampleExecutor none) = .error Fault.assertion ∧
    DInit_ndebug true (exampleExecutor none)
      = .ok (true, DInit_columns (DInit_keys (DInit_grab (exampleExecutor none)))) :=
  ⟨(DInit_malformed_plan_asserts true (exampleExecutor none) (Or.inl rfl)).2.2.1 rfl,
   (DInit_malformed_plan_asserts true (exampleExecutor none) (Or.inl rfl)).2.2.2.2 rfl⟩

end peloton
